import Mathlib

namespace FolderSync

/-!
Verification development for the folder synchronization program
(src/folder_sync.py).  The program performs one-way recursive
synchronization of a replica directory tree against a source tree using
filecmp.dircmp for the per-level comparison and an MD5 digest comparison
for common files.

The embedding models:
  * byte sequences as List Nat (each element a byte value),
  * the MD5 digest (hashlib.md5) as a function from a byte list to its
    hexadecimal digest string, where the hashlib incremental interface is
    modelled by its documented semantics: the final digest is the digest
    of the concatenation of all bytes fed to update,
  * the chunked file-read loop of calculate_md5 (f.read(4096)),
  * directory trees as finitely branching labelled trees whose entry
    lists are kept in sorted order (the canonical listing order used by
    dircmp, which sorts os.listdir output),
  * dircmp with its default hide and ignore lists,
  * sync_folders as a function from the source entries and the optional
    replica entries to the new replica entries together with the list of
    logged actions.
-/

/-! ### MD5 (model of hashlib.md5) -/

/-- Truncation to a 32-bit word. -/
def w32 (n : Nat) : Nat := n % 4294967296

/-- Bitwise complement within 32 bits (argument assumed below 2^32). -/
def w32not (n : Nat) : Nat := 4294967295 - n

/-- Left rotation of a 32-bit word by s bits (argument assumed below 2^32). -/
def rotl32 (x s : Nat) : Nat := (x * 2 ^ s) % 4294967296 + x / 2 ^ (32 - s)

/-- The 64 MD5 round constants (RFC 1321). -/
def md5K : List Nat :=
  [0xd76aa478, 0xe8c7b756, 0x242070db, 0xc1bdceee,
   0xf57c0faf, 0x4787c62a, 0xa8304613, 0xfd469501,
   0x698098d8, 0x8b44f7af, 0xffff5bb1, 0x895cd7be,
   0x6b901122, 0xfd987193, 0xa679438e, 0x49b40821,
   0xf61e2562, 0xc040b340, 0x265e5a51, 0xe9b6c7aa,
   0xd62f105d, 0x02441453, 0xd8a1e681, 0xe7d3fbc8,
   0x21e1cde6, 0xc33707d6, 0xf4d50d87, 0x455a14ed,
   0xa9e3e905, 0xfcefa3f8, 0x676f02d9, 0x8d2a4c8a,
   0xfffa3942, 0x8771f681, 0x6d9d6122, 0xfde5380c,
   0xa4beea44, 0x4bdecfa9, 0xf6bb4b60, 0xbebfbc70,
   0x289b7ec6, 0xeaa127fa, 0xd4ef3085, 0x04881d05,
   0xd9d4d039, 0xe6db99e5, 0x1fa27cf8, 0xc4ac5665,
   0xf4292244, 0x432aff97, 0xab9423a7, 0xfc93a039,
   0x655b59c3, 0x8f0ccc92, 0xffeff47d, 0x85845dd1,
   0x6fa87e4f, 0xfe2ce6e0, 0xa3014314, 0x4e0811a1,
   0xf7537e82, 0xbd3af235, 0x2ad7d2bb, 0xeb86d391]

/-- The 64 MD5 per-round left-rotation amounts. -/
def md5Sh : List Nat :=
  [7, 12, 17, 22, 7, 12, 17, 22, 7, 12, 17, 22, 7, 12, 17, 22,
   5, 9, 14, 20, 5, 9, 14, 20, 5, 9, 14, 20, 5, 9, 14, 20,
   4, 11, 16, 23, 4, 11, 16, 23, 4, 11, 16, 23, 4, 11, 16, 23,
   6, 10, 15, 21, 6, 10, 15, 21, 6, 10, 15, 21, 6, 10, 15, 21]

/-- Little-endian 32-bit word number g of a 64-byte block. -/
def blockWord (block : List Nat) (g : Nat) : Nat :=
  block.getD (4 * g) 0 + 256 * block.getD (4 * g + 1) 0 +
    65536 * block.getD (4 * g + 2) 0 + 16777216 * block.getD (4 * g + 3) 0

/-- One MD5 round: round index i applied to the running (a, b, c, d). -/
def md5Round (block : List Nat) (st : Nat × Nat × Nat × Nat) (i : Nat) :
    Nat × Nat × Nat × Nat :=
  match st with
  | (a, b, c, d) =>
    let f :=
      if i < 16 then (b &&& c) ||| (w32not b &&& d)
      else if i < 32 then (d &&& b) ||| (w32not d &&& c)
      else if i < 48 then b ^^^ c ^^^ d
      else c ^^^ (b ||| w32not d)
    let g :=
      if i < 16 then i
      else if i < 32 then (5 * i + 1) % 16
      else if i < 48 then (3 * i + 5) % 16
      else (7 * i) % 16
    let tmp := w32 (a + f + md5K.getD i 0 + blockWord block g)
    (d, w32 (b + rotl32 tmp (md5Sh.getD i 0)), b, c)

/-- Process one 64-byte block, updating the MD5 chaining state. -/
def md5Block (st : Nat × Nat × Nat × Nat) (block : List Nat) :
    Nat × Nat × Nat × Nat :=
  match (List.range 64).foldl (md5Round block) st with
  | (a, b, c, d) =>
    match st with
    | (a0, b0, c0, d0) => (w32 (a0 + a), w32 (b0 + b), w32 (c0 + c), w32 (d0 + d))

/-- Split a byte list into the successive pieces a read loop with the given
read size produces; a read size of zero yields the empty-read sentinel at
once, producing no pieces.  This models iter(lambda: f.read(csz), b""). -/
def readChunks (csz : Nat) (bs : List Nat) : List (List Nat) :=
  if csz = 0 then []
  else if h : bs = [] then []
  else bs.take csz :: readChunks csz (bs.drop csz)
termination_by bs.length
decreasing_by
  simp only [List.length_drop]
  have hb : 0 < bs.length := List.length_pos.mpr h
  omega

/-- Little-endian byte expansion, k bytes. -/
def leBytes : Nat → Nat → List Nat
  | 0, _ => []
  | k + 1, n => n % 256 :: leBytes k (n / 256)

/-- MD5 padding: a 0x80 byte, zero bytes up to 56 mod 64, then the original
bit length as a little-endian 64-bit value. -/
def md5Pad (msg : List Nat) : List Nat :=
  msg ++ [128] ++ List.replicate ((119 - msg.length % 64) % 64) 0 ++
    leBytes 8 (msg.length * 8 % 18446744073709551616)

/-- Hexadecimal digit character. -/
def hexChar (n : Nat) : Char :=
  if n < 10 then Char.ofNat (48 + n) else Char.ofNat (87 + n)

/-- Render a byte list in lowercase hexadecimal. -/
def bytesToHex (bs : List Nat) : String :=
  String.mk (bs.foldr (fun b acc => hexChar (b / 16) :: hexChar (b % 16) :: acc) [])

/-- The MD5 hexadecimal digest of a byte list (RFC 1321). -/
def md5hex (msg : List Nat) : String :=
  match (readChunks 64 (md5Pad msg)).foldl md5Block
      (1732584193, 4023233417, 2562383102, 271733878) with
  | (a, b, c, d) => bytesToHex (leBytes 4 a ++ leBytes 4 b ++ leBytes 4 c ++ leBytes 4 d)

/-! ### calculate_md5 and files_are_different (src/folder_sync.py lines 59-80) -/

/-- Model of the hashlib update method: the digest context accumulates all
bytes fed so far (the documented semantics of the incremental interface:
m.update(a); m.update(b) is equivalent to m.update(a+b)). -/
def md5_update (ctx chunk : List Nat) : List Nat := ctx ++ chunk

/-- Model of the hashlib hexdigest method on an accumulated context. -/
def md5_hexdigest (ctx : List Nat) : String := md5hex ctx

/-- The digest a chunked read loop with the given read size computes. -/
def chunkedDigest (csz : Nat) (content : List Nat) : String :=
  md5_hexdigest ((readChunks csz content).foldl md5_update [])

/-- calculate_md5: reads the file in successive 4096-byte chunks, feeding
each chunk to the hasher, and returns the hexadecimal digest. -/
def calculate_md5 (content : List Nat) : String := chunkedDigest 4096 content

/-- files_are_different: true when the MD5 digests of the two files differ. -/
def files_are_different (src dest : List Nat) : Bool :=
  calculate_md5 src != calculate_md5 dest

/-! ### Chunking lemmas -/

/-- Folding the accumulating update over a chunk list concatenates. -/
theorem foldl_md5_update (l : List (List Nat)) (acc : List Nat) :
    l.foldl md5_update acc = acc ++ l.flatten := by
  induction l generalizing acc with
  | nil => simp
  | cons c l ih => simp [md5_update, ih, List.append_assoc]

/-- The pieces produced by a read loop with a positive read size
concatenate back to the whole byte sequence. -/
theorem readChunks_join (csz : Nat) (bs : List Nat) (h : 1 ≤ csz) :
    (readChunks csz bs).flatten = bs := by
  rw [readChunks]
  by_cases h0 : csz = 0
  · omega
  · simp only [h0, if_false]
    by_cases hb : bs = []
    · simp [hb]
    · simp only [hb, dif_neg, not_false_iff]
      rw [List.flatten_cons, readChunks_join csz (bs.drop csz) h]
      exact List.take_append_drop csz bs
termination_by bs.length
decreasing_by
  simp only [List.length_drop]
  have hbp : 0 < bs.length := List.length_pos.mpr hb
  omega

/-- A chunked digest with positive read size equals the digest of the
whole content. -/
theorem chunkedDigest_eq (csz : Nat) (content : List Nat) (h : 1 ≤ csz) :
    chunkedDigest csz content = md5hex content := by
  unfold chunkedDigest md5_hexdigest
  rw [foldl_md5_update, List.nil_append, readChunks_join csz content h]

/-! ### Filesystem trees -/

/-- A filesystem node: a regular file with its byte content, or a
directory with its named entries.  Entry lists are kept sorted by name
with no duplicates (the canonical listing: dircmp sorts os.listdir
output, and a directory cannot contain two entries of the same name);
well-formedness is expressed by wfE below. -/
inductive FsTree where
  | file (content : List Nat)
  | dir (entries : List (String × FsTree))

/-- The entry list of a directory. -/
abbrev Entries := List (String × FsTree)

/-- Byte-wise lexicographic comparison of code-point sequences. -/
def natListLt : List Nat → List Nat → Bool
  | [], [] => false
  | [], _ :: _ => true
  | _ :: _, [] => false
  | a :: as, b :: bs => if a < b then true else if b < a then false else natListLt as bs

/-- The string order used for listings: lexicographic on code points,
the order in which Python sorts the names returned by os.listdir. -/
def strLt (a b : String) : Bool :=
  natListLt (a.data.map Char.toNat) (b.data.map Char.toNat)

/-- Look an entry name up in a directory listing. -/
def lookupE (n : String) : Entries → Option FsTree
  | [] => none
  | (m, t) :: es => if m = n then some t else lookupE n es

/-- Create or overwrite the entry with the given name, keeping the
listing sorted: the effect of writing source/n into the directory. -/
def insertEntry (n : String) (t : FsTree) : Entries → Entries
  | [] => [(n, t)]
  | (m, u) :: es =>
    if strLt n m then (n, t) :: (m, u) :: es
    else if n = m then (n, t) :: es
    else (m, u) :: insertEntry n t es

/-- Delete the entry with the given name: os.remove or shutil.rmtree. -/
def removeEntry (n : String) : Entries → Entries
  | [] => []
  | (m, u) :: es => if m = n then es else (m, u) :: removeEntry n es

/-- The names of a listing, in listing order. -/
def namesE (es : Entries) : List String := es.map Prod.fst

/-- Strict sortedness of a listing by name. -/
def sortedNames : Entries → Bool
  | [] => true
  | [_] => true
  | (m, _) :: (n, t) :: es => strLt m n && sortedNames ((n, t) :: es)

mutual
/-- Well-formedness of a tree: every directory listing is strictly
sorted, recursively. -/
def FsTree.wfB : FsTree → Bool
  | .file _ => true
  | .dir es => sortedNames es && wfChildren es
def wfChildren : Entries → Bool
  | [] => true
  | (_, t) :: es => t.wfB && wfChildren es
end

/-- Well-formedness of a directory listing. -/
def wfE (es : Entries) : Bool := sortedNames es && wfChildren es

/-! ### Decidable equality for trees -/

mutual
/-- Structural boolean equality of trees. -/
def FsTree.beqT : FsTree → FsTree → Bool
  | .file c, .file d => c == d
  | .dir es, .dir fs => beqEntries es fs
  | _, _ => false
def beqEntries : Entries → Entries → Bool
  | [], [] => true
  | (n, t) :: es, (m, u) :: fs => n == m && FsTree.beqT t u && beqEntries es fs
  | _, _ => false
end

mutual
/-- Boolean tree equality is propositional equality. -/
theorem FsTree.beqT_iff : ∀ t u : FsTree, FsTree.beqT t u = true ↔ t = u
  | .file c, .file d => by simp [FsTree.beqT]
  | .file c, .dir fs => by simp [FsTree.beqT]
  | .dir es, .file d => by simp [FsTree.beqT]
  | .dir es, .dir fs => by simp [FsTree.beqT, beqEntries_iff es fs]
theorem beqEntries_iff : ∀ es fs : Entries, beqEntries es fs = true ↔ es = fs
  | [], [] => by simp [beqEntries]
  | [], _ :: _ => by simp [beqEntries]
  | _ :: _, [] => by simp [beqEntries]
  | (n, t) :: es, (m, u) :: fs => by
    simp only [beqEntries, Bool.and_eq_true, beq_iff_eq, FsTree.beqT_iff t u,
      beqEntries_iff es fs, List.cons.injEq, Prod.mk.injEq]
end

instance : DecidableEq FsTree := fun t u => decidable_of_iff _ (FsTree.beqT_iff t u)

/-! ### dircmp (filecmp.dircmp with default arguments) -/

/-- The default hide list of dircmp: os.curdir and os.pardir. -/
def HIDE : List String := [".", ".."]

/-- The default ignore list of dircmp (filecmp.DEFAULT_IGNORES). -/
def DEFAULT_IGNORES : List String :=
  ["RCS", "CVS", "tags", ".git", ".hg", ".bzr", "_darcs", "__pycache__"]

/-- Whether a name survives the hide and ignore filter of dircmp. -/
def visibleName (n : String) : Bool := !((HIDE ++ DEFAULT_IGNORES).contains n)

/-- The filtered, sorted listing dircmp computes for one directory. -/
def listingOf (es : Entries) : List String := (namesE es).filter visibleName

/-- dircmp.common: names present in both filtered listings. -/
def dcCommon (S R : Entries) : List String :=
  (listingOf S).filter (fun n => (listingOf R).contains n)

/-- dircmp.left_only: names only in the source listing. -/
def dcLeftOnly (S R : Entries) : List String :=
  (listingOf S).filter (fun n => !(listingOf R).contains n)

/-- dircmp.right_only: names only in the replica listing. -/
def dcRightOnly (S R : Entries) : List String :=
  (listingOf R).filter (fun n => !(listingOf S).contains n)

/-- Whether an optional lookup result is a directory. -/
def isDirO : Option FsTree → Bool
  | some (.dir _) => true
  | _ => false

/-- Whether an optional lookup result is a regular file. -/
def isFileO : Option FsTree → Bool
  | some (.file _) => true
  | _ => false

/-- dircmp.common_dirs: common names that are directories on both sides
(common names of other or mismatched types end up in common_funny and
are never touched by sync_folders). -/
def dcCommonDirs (S R : Entries) : List String :=
  (dcCommon S R).filter (fun n => isDirO (lookupE n S) && isDirO (lookupE n R))

/-- dircmp.common_files: common names that are regular files on both sides. -/
def dcCommonFiles (S R : Entries) : List String :=
  (dcCommon S R).filter (fun n => isFileO (lookupE n S) && isFileO (lookupE n R))

/-! ### The logged actions of sync_folders -/

/-- One logged action of sync_folders, tagged with the replica-relative
path it targets (the log_and_print calls of the source). -/
inductive Action where
  | createdDir (p : List String)
  | copiedFile (p : List String)
  | copiedDir (p : List String)
  | removedFile (p : List String)
  | removedDir (p : List String)
  | updatedFile (p : List String)
deriving DecidableEq

/-- The replica-relative path an action targets. -/
def Action.path : Action → List String
  | .createdDir p => p
  | .copiedFile p => p
  | .copiedDir p => p
  | .removedFile p => p
  | .removedDir p => p
  | .updatedFile p => p

/-! ### sync_folders (src/folder_sync.py lines 82-128) -/

/-- The os.makedirs call at the head of sync_folders: one created
directory when the replica path does not exist yet. -/
def mkdirActions (p : List String) : Option Entries → List Action
  | none => [Action.createdDir p]
  | some _ => []

/-- One step of the left_only loop: shutil.copytree for a source
directory, shutil.copy2 for a source file. -/
def copyOne (p : List String) (S : Entries) (st : Entries × List Action) (n : String) :
    Entries × List Action :=
  match lookupE n S with
  | some (.dir es) => (insertEntry n (.dir es) st.1, st.2 ++ [Action.copiedDir (p ++ [n])])
  | some (.file c) => (insertEntry n (.file c) st.1, st.2 ++ [Action.copiedFile (p ++ [n])])
  | none => st

/-- One step of the right_only loop: shutil.rmtree for a replica
directory, os.remove for a replica file (the isdir test reads the live
replica). -/
def removeOne (p : List String) (st : Entries × List Action) (n : String) :
    Entries × List Action :=
  match lookupE n st.1 with
  | some (.dir _) => (removeEntry n st.1, st.2 ++ [Action.removedDir (p ++ [n])])
  | _ => (removeEntry n st.1, st.2 ++ [Action.removedFile (p ++ [n])])

/-- One step of the common_files loop: overwrite the replica file when
the MD5 digests differ. -/
def updateOne (p : List String) (S : Entries) (st : Entries × List Action) (n : String) :
    Entries × List Action :=
  match lookupE n S, lookupE n st.1 with
  | some (.file cs), some (.file cr) =>
    if files_are_different cs cr
    then (insertEntry n (.file cs) st.1, st.2 ++ [Action.updatedFile (p ++ [n])])
    else st
  | _, _ => st

/-- The three non-recursive loops of sync_folders, in source order:
copy left_only entries, remove right_only entries, update differing
common files.  S and R are the listings dircmp compared (the comparison
object is computed once, before any mutation). -/
def phases123 (p : List String) (S R : Entries) (st : Entries × List Action) :
    Entries × List Action :=
  (dcCommonFiles S R).foldl (updateOne p S)
    ((dcRightOnly S R).foldl (removeOne p)
      ((dcLeftOnly S R).foldl (copyOne p S) st))

mutual
/-- The recursive part of sync_folders.

syncSub reconciles one source subtree against an optional replica
subtree: the body of sync_folders (create the replica directory if
missing, compare, run the three loops, recurse into common
subdirectories).  The file case is unreachable: sync_folders is only
invoked on directories.

syncDirs is the common_dirs loop.  dircmp.common_dirs is an
order-preserving sublist of the sorted source listing, so iterating the
source entries and keeping those whose name lies in common_dirs visits
exactly the common subdirectories in loop order; the replica side is
read live from the current replica state, as the recursive call does in
the source. -/
def syncSub (p : List String) : FsTree → Option Entries → FsTree × List Action
  | FsTree.file c, _ => (FsTree.file c, [])
  | FsTree.dir es, rep =>
    match syncDirs p es (dcCommonDirs es (rep.getD []))
        (phases123 p es (rep.getD []) (rep.getD [], mkdirActions p rep)) with
    | (res, acts) => (FsTree.dir res, acts)

def syncDirs (p : List String) : Entries → List String → Entries × List Action → Entries × List Action
  | [], _, st => st
  | (n, t) :: rest, cds, st =>
    if cds.contains n then
      match lookupE n st.1 with
      | some (FsTree.dir er) =>
        match syncSub (p ++ [n]) t (some er) with
        | (u, acts) => syncDirs p rest cds (insertEntry n u st.1, st.2 ++ acts)
      | some (FsTree.file _) => syncDirs p rest cds st
      | none =>
        match syncSub (p ++ [n]) t none with
        | (u, acts) => syncDirs p rest cds (insertEntry n u st.1, st.2 ++ acts)
    else syncDirs p rest cds st
end

/-- sync_folders on a directory pair: p is the replica-relative path of
the pair, S the source listing, rep the replica listing (none when the
replica directory does not exist yet).  Returns the new replica listing
and the logged actions. -/
def sync_folders (p : List String) (S : Entries) (rep : Option Entries) :
    Entries × List Action :=
  syncDirs p S (dcCommonDirs S (rep.getD []))
    (phases123 p S (rep.getD []) (rep.getD [], mkdirActions p rep))

/-- Unfolding: reconciling a source directory subtree is sync_folders of
its entries. -/
theorem syncSub_dir (p : List String) (es : Entries) (rep : Option Entries) :
    syncSub p (FsTree.dir es) rep =
      (FsTree.dir (sync_folders p es rep).1, (sync_folders p es rep).2) := by
  rw [syncSub, sync_folders]

/-! ### Order lemmas for listings -/

theorem natListLt_irrefl : ∀ l, natListLt l l = false
  | [] => rfl
  | a :: as => by simp [natListLt, natListLt_irrefl as]

theorem natListLt_trans : ∀ a b c, natListLt a b = true → natListLt b c = true →
    natListLt a c = true
  | [], [], _, h1, _ => by simp [natListLt] at h1
  | [], _ :: _, [], _, h2 => by simp [natListLt] at h2
  | [], _ :: _, _ :: _, _, _ => rfl
  | _ :: _, [], _, h1, _ => by simp [natListLt] at h1
  | _ :: _, _ :: _, [], _, h2 => by simp [natListLt] at h2
  | a :: as, b :: bs, c :: cs, h1, h2 => by
    simp only [natListLt] at h1 h2 ⊢
    by_cases hab : a < b
    · by_cases hbc : b < c
      · simp [show a < c by omega]
      · by_cases hcb : c < b
        · rw [if_neg hbc, if_pos hcb] at h2; cases h2
        · simp [show a < c by omega]
    · by_cases hba : b < a
      · rw [if_neg hab, if_pos hba] at h1; cases h1
      · by_cases hbc : b < c
        · simp [show a < c by omega]
        · by_cases hcb : c < b
          · rw [if_neg hbc, if_pos hcb] at h2; cases h2
          · have hac : ¬ a < c := by omega
            have hca : ¬ c < a := by omega
            rw [if_neg hac, if_neg hca]
            rw [if_neg hab, if_neg hba] at h1
            rw [if_neg hbc, if_neg hcb] at h2
            exact natListLt_trans as bs cs h1 h2

theorem natListLt_eq_of_not : ∀ a b, natListLt a b = false → natListLt b a = false → a = b
  | [], [], _, _ => rfl
  | [], _ :: _, h1, _ => by simp [natListLt] at h1
  | _ :: _, [], _, h2 => by simp [natListLt] at h2
  | a :: as, b :: bs, h1, h2 => by
    simp only [natListLt] at h1 h2
    by_cases hab : a < b
    · rw [if_pos hab] at h1; cases h1
    · by_cases hba : b < a
      · rw [if_pos hba] at h2; cases h2
      · have hab2 : a = b := by omega
        rw [if_neg hab, if_neg hba] at h1
        rw [if_neg hba, if_neg hab] at h2
        rw [hab2, natListLt_eq_of_not as bs h1 h2]

theorem char_toNat_inj (c d : Char) (h : c.toNat = d.toNat) : c = d := by
  apply Char.eq_of_val_eq
  apply UInt32.eq_of_toBitVec_eq
  exact BitVec.eq_of_toNat_eq h

theorem strLt_irrefl (s : String) : strLt s s = false := natListLt_irrefl _

theorem strLt_trans {a b c : String} (h1 : strLt a b = true) (h2 : strLt b c = true) :
    strLt a c = true := natListLt_trans _ _ _ h1 h2

theorem strLt_eq_of_not {a b : String} (h1 : strLt a b = false) (h2 : strLt b a = false) :
    a = b := by
  have hd : a.data.map Char.toNat = b.data.map Char.toNat := natListLt_eq_of_not _ _ h1 h2
  have hinj : Function.Injective Char.toNat := fun c d h => char_toNat_inj c d h
  have : a.data = b.data := List.map_injective_iff.mpr hinj hd
  cases a; cases b; simp_all

theorem strLt_total {a b : String} (h1 : strLt a b = false) (hne : a ≠ b) :
    strLt b a = true := by
  cases hba : strLt b a
  · exact absurd (strLt_eq_of_not h1 hba) hne
  · rfl

theorem strLt_asymm {a b : String} (h : strLt a b = true) : strLt b a = false := by
  cases hba : strLt b a
  · rfl
  · have h2 := strLt_trans h hba
    rw [strLt_irrefl] at h2
    cases h2

theorem strLt_ne {a b : String} (h : strLt a b = true) : a ≠ b := by
  rintro rfl
  rw [strLt_irrefl] at h
  cases h

/-! ### Listing lemmas -/

theorem namesE_cons (e : String × FsTree) (es : Entries) :
    namesE (e :: es) = e.1 :: namesE es := rfl

theorem sortedNames_cons (m : String) (t : FsTree) (es : Entries) :
    sortedNames ((m, t) :: es) = true ↔
      (∀ k ∈ namesE es, strLt m k = true) ∧ sortedNames es = true := by
  induction es generalizing m t with
  | nil => simp [sortedNames, namesE]
  | cons e es ih =>
    match e with
    | (n, u) =>
      rw [show sortedNames ((m, t) :: (n, u) :: es) = (strLt m n && sortedNames ((n, u) :: es))
          from rfl]
      constructor
      · intro h
        have h1 : strLt m n = true := by
          cases hmn : strLt m n
          · rw [hmn] at h; cases h
          · rfl
        have h2 : sortedNames ((n, u) :: es) = true := by
          cases hs : sortedNames ((n, u) :: es)
          · rw [hs] at h; simp at h
          · rfl
        refine ⟨?_, h2⟩
        intro k hk
        simp only [namesE_cons, List.mem_cons] at hk
        rcases hk with rfl | hk
        · exact h1
        · exact strLt_trans h1 (((ih n u).mp h2).1 k hk)
      · rintro ⟨hall, hs⟩
        have h1 : strLt m n = true := hall n (by simp [namesE_cons])
        rw [h1, hs]
        rfl

theorem sortedNames_tail {e : String × FsTree} {es : Entries}
    (h : sortedNames (e :: es) = true) : sortedNames es = true := by
  match e with
  | (m, t) => exact ((sortedNames_cons m t es).mp h).2

theorem sortedNames_nodup : ∀ {es : Entries}, sortedNames es = true → (namesE es).Nodup
  | [], _ => List.nodup_nil
  | (m, t) :: es, h => by
    have hc := (sortedNames_cons m t es).mp h
    rw [namesE_cons]
    refine List.Nodup.cons ?_ (sortedNames_nodup hc.2)
    intro hmem
    exact absurd rfl (strLt_ne (hc.1 m hmem))

theorem lookupE_none_iff (n : String) : ∀ es : Entries, lookupE n es = none ↔ n ∉ namesE es
  | [] => by simp [lookupE, namesE]
  | (m, t) :: es => by
    rw [lookupE, namesE_cons]
    by_cases hmn : m = n
    · subst hmn; simp
    · simp only [hmn, if_false, List.mem_cons]
      rw [lookupE_none_iff n es]
      constructor
      · intro h hmem
        rcases hmem with hmem | hmem
        · exact hmn hmem.symm
        · exact h hmem
      · intro h hmem
        exact h (Or.inr hmem)

theorem lookupE_isSome_iff (n : String) (es : Entries) :
    (lookupE n es).isSome = true ↔ n ∈ namesE es := by
  constructor
  · intro hs
    by_contra hmem
    rw [← lookupE_none_iff] at hmem
    rw [hmem] at hs
    cases hs
  · intro hmem
    cases h : lookupE n es
    · exact absurd hmem ((lookupE_none_iff n es).mp h)
    · rfl

theorem lookupE_mem {n : String} : ∀ {es : Entries} {t : FsTree},
    lookupE n es = some t → (n, t) ∈ es
  | [], t, h => by simp [lookupE] at h
  | (m, u) :: es, t, h => by
    rw [lookupE] at h
    by_cases hmn : m = n
    · subst hmn
      rw [if_pos rfl] at h
      injection h with h
      subst h
      exact List.mem_cons_self _ _
    · rw [if_neg hmn] at h
      exact List.mem_cons_of_mem _ (lookupE_mem h)

theorem lookupE_insert (n : String) (t : FsTree) :
    ∀ (es : Entries) (k : String),
      lookupE k (insertEntry n t es) = if k = n then some t else lookupE k es
  | [], k => by
    by_cases hk : k = n
    · subst hk
      simp [insertEntry, lookupE]
    · have hnk : ¬ n = k := fun h => hk h.symm
      simp [insertEntry, lookupE, hk, hnk]
  | (m, u) :: es, k => by
    by_cases h1 : strLt n m = true
    · by_cases hk : k = n
      · subst hk
        simp [insertEntry, h1, lookupE]
      · have hnk : ¬ n = k := fun h => hk h.symm
        simp [insertEntry, h1, lookupE, hk, hnk]
    · by_cases h2 : n = m
      · subst h2
        by_cases hk : k = n
        · subst hk
          simp [insertEntry, h1, lookupE]
        · have hnk : ¬ n = k := fun h => hk h.symm
          simp [insertEntry, h1, lookupE, hk, hnk]
      · have hmn : ¬ m = n := fun h => h2 h.symm
        have hrec := lookupE_insert n t es k
        by_cases hm : m = k
        · subst hm
          have hkn : ¬ m = n := fun h => h2 h.symm
          simp [insertEntry, h1, h2, lookupE, hkn]
        · by_cases hk : k = n
          · subst hk
            simp [insertEntry, h1, h2, lookupE, hm, hrec]
          · simp [insertEntry, h1, h2, lookupE, hm, hk, hrec]

theorem lookupE_remove (n : String) :
    ∀ (es : Entries) (k : String), (namesE es).Nodup →
      lookupE k (removeEntry n es) = if k = n then none else lookupE k es
  | [], k, _ => by simp [removeEntry, lookupE]
  | (m, u) :: es, k, hnd => by
    rw [namesE_cons, List.nodup_cons] at hnd
    by_cases hmn : m = n
    · subst hmn
      rw [removeEntry, if_pos rfl]
      by_cases hk : k = m
      · subst hk
        rw [if_pos rfl, (lookupE_none_iff k es).mpr hnd.1]
      · rw [if_neg hk, lookupE, if_neg (fun h => hk h.symm)]
    · rw [removeEntry, if_neg hmn, lookupE]
      by_cases hm : m = k
      · subst hm
        have hkn : ¬ m = n := hmn
        rw [if_pos rfl, if_neg hkn, lookupE, if_pos rfl]
      · rw [if_neg hm, lookupE_remove n es k hnd.2]
        by_cases hk : k = n
        · rw [if_pos hk, if_pos hk]
        · rw [if_neg hk, if_neg hk, lookupE, if_neg hm]

theorem removeEntry_sub {n : String} :
    ∀ {es : Entries} {e : String × FsTree}, e ∈ removeEntry n es → e ∈ es
  | [], e, h => by simp [removeEntry] at h
  | (m, u) :: es, e, h => by
    rw [removeEntry] at h
    by_cases hmn : m = n
    · rw [if_pos hmn] at h
      exact List.mem_cons_of_mem _ h
    · rw [if_neg hmn, List.mem_cons] at h
      rcases h with h | h
      · exact h ▸ List.mem_cons_self _ _
      · exact List.mem_cons_of_mem _ (removeEntry_sub h)

theorem insertEntry_mem {n : String} {t : FsTree} :
    ∀ {es : Entries} {e : String × FsTree}, e ∈ insertEntry n t es → e = (n, t) ∨ e ∈ es
  | [], e, h => by
    rw [insertEntry] at h
    simp at h
    exact Or.inl h
  | (m, u) :: es, e, h => by
    rw [insertEntry] at h
    by_cases h1 : strLt n m = true
    · rw [if_pos h1, List.mem_cons] at h
      rcases h with h | h
      · exact Or.inl h
      · exact Or.inr h
    · rw [if_neg h1] at h
      by_cases h2 : n = m
      · rw [if_pos h2, List.mem_cons] at h
        rcases h with h | h
        · exact Or.inl h
        · exact Or.inr (List.mem_cons_of_mem _ h)
      · rw [if_neg h2, List.mem_cons] at h
        rcases h with h | h
        · exact Or.inr (h ▸ List.mem_cons_self _ _)
        · rcases insertEntry_mem h with h | h
          · exact Or.inl h
          · exact Or.inr (List.mem_cons_of_mem _ h)

theorem namesE_insert_mem {n k : String} {t : FsTree} {es : Entries}
    (h : k ∈ namesE (insertEntry n t es)) : k = n ∨ k ∈ namesE es := by
  rw [namesE, List.mem_map] at h
  rcases h with ⟨e, he, hk⟩
  rcases insertEntry_mem he with h | h
  · subst h
    exact Or.inl hk.symm
  · exact Or.inr (by rw [namesE, List.mem_map]; exact ⟨e, h, hk⟩)

theorem namesE_remove_mem {n k : String} {es : Entries}
    (h : k ∈ namesE (removeEntry n es)) : k ∈ namesE es := by
  rw [namesE, List.mem_map] at h
  rcases h with ⟨e, he, hk⟩
  rw [namesE, List.mem_map]
  exact ⟨e, removeEntry_sub he, hk⟩

theorem insertEntry_sorted (n : String) (t : FsTree) :
    ∀ es : Entries, sortedNames es = true → sortedNames (insertEntry n t es) = true
  | [], _ => rfl
  | (m, u) :: es, h => by
    have hc := (sortedNames_cons m u es).mp h
    rw [insertEntry]
    by_cases h1 : strLt n m = true
    · rw [if_pos h1, sortedNames_cons]
      refine ⟨?_, h⟩
      intro k hk
      rw [namesE_cons] at hk
      rcases List.mem_cons.mp hk with rfl | hk
      · exact h1
      · exact strLt_trans h1 (hc.1 k hk)
    · rw [if_neg h1]
      by_cases h2 : n = m
      · subst h2
        rw [if_pos rfl, sortedNames_cons]
        exact hc
      · rw [if_neg h2, sortedNames_cons]
        refine ⟨?_, insertEntry_sorted n t es hc.2⟩
        intro k hk
        rcases namesE_insert_mem hk with rfl | hk
        · exact strLt_total (Bool.eq_false_iff.mpr h1) h2
        · exact hc.1 k hk

theorem removeEntry_sorted (n : String) :
    ∀ es : Entries, sortedNames es = true → sortedNames (removeEntry n es) = true
  | [], _ => rfl
  | (m, u) :: es, h => by
    have hc := (sortedNames_cons m u es).mp h
    rw [removeEntry]
    by_cases hmn : m = n
    · rw [if_pos hmn]
      exact hc.2
    · rw [if_neg hmn, sortedNames_cons]
      exact ⟨fun k hk => hc.1 k (namesE_remove_mem hk), removeEntry_sorted n es hc.2⟩

theorem insertEntry_self {n : String} {t : FsTree} :
    ∀ {es : Entries}, sortedNames es = true → lookupE n es = some t →
      insertEntry n t es = es
  | [], _, hl => by simp [lookupE] at hl
  | (m, u) :: es, hs, hl => by
    have hc := (sortedNames_cons m u es).mp hs
    rw [lookupE] at hl
    rw [insertEntry]
    by_cases hmn : m = n
    · subst hmn
      rw [if_pos rfl] at hl
      injection hl with hl
      rw [if_neg (by rw [strLt_irrefl]; simp), if_pos rfl, hl]
    · rw [if_neg hmn] at hl
      have hmem : n ∈ namesE es := by
        rw [← lookupE_isSome_iff, hl]
        rfl
      have hlt : strLt m n = true := hc.1 n hmem
      rw [if_neg (by rw [strLt_asymm hlt]; simp), if_neg (fun h => hmn h.symm),
        insertEntry_self hc.2 hl]

/-! ### Well-formedness lemmas -/

theorem wfB_dir_iff (es : Entries) : (FsTree.dir es).wfB = true ↔ wfE es = true := by
  rw [FsTree.wfB, wfE]

theorem wfChildren_iff : ∀ es : Entries, wfChildren es = true ↔ ∀ e ∈ es, e.2.wfB = true
  | [] => by simp [wfChildren]
  | (m, u) :: es => by
    rw [wfChildren, Bool.and_eq_true, wfChildren_iff es]
    constructor
    · rintro ⟨h1, h2⟩ e he
      rcases List.mem_cons.mp he with rfl | he
      · exact h1
      · exact h2 e he
    · intro h
      exact ⟨h (m, u) (List.mem_cons_self _ _), fun e he => h e (List.mem_cons_of_mem _ he)⟩

theorem wfE_sorted {es : Entries} (h : wfE es = true) : sortedNames es = true := by
  rw [wfE, Bool.and_eq_true] at h
  exact h.1

theorem wfE_nodup {es : Entries} (h : wfE es = true) : (namesE es).Nodup :=
  sortedNames_nodup (wfE_sorted h)

theorem wfE_lookup {es : Entries} {n : String} {t : FsTree}
    (h : wfE es = true) (hl : lookupE n es = some t) : t.wfB = true := by
  rw [wfE, Bool.and_eq_true] at h
  exact (wfChildren_iff es).mp h.2 (n, t) (lookupE_mem hl)

theorem wfE_insert {es : Entries} {n : String} {t : FsTree}
    (h : wfE es = true) (ht : t.wfB = true) : wfE (insertEntry n t es) = true := by
  rw [wfE, Bool.and_eq_true] at h ⊢
  refine ⟨insertEntry_sorted n t es h.1, ?_⟩
  rw [wfChildren_iff]
  intro e he
  rcases insertEntry_mem he with rfl | he
  · exact ht
  · exact (wfChildren_iff es).mp h.2 e he

theorem wfE_remove {es : Entries} {n : String} (h : wfE es = true) :
    wfE (removeEntry n es) = true := by
  rw [wfE, Bool.and_eq_true] at h ⊢
  exact ⟨removeEntry_sorted n es h.1,
    (wfChildren_iff _).mpr fun e he => (wfChildren_iff es).mp h.2 e (removeEntry_sub he)⟩

/-! ### dircmp membership lemmas -/

theorem mem_listingOf {n : String} {es : Entries} :
    n ∈ listingOf es ↔ visibleName n = true ∧ n ∈ namesE es := by
  rw [listingOf, List.mem_filter]
  exact and_comm

theorem containsF_iff (l : List String) (n : String) : l.contains n = true ↔ n ∈ l := by
  simp [List.contains]

theorem contains_listingOf (n : String) (es : Entries) :
    (listingOf es).contains n = true ↔ visibleName n = true ∧ n ∈ namesE es := by
  rw [containsF_iff]
  exact mem_listingOf

theorem mem_dcCommon {n : String} {S R : Entries} :
    n ∈ dcCommon S R ↔ visibleName n = true ∧ n ∈ namesE S ∧ n ∈ namesE R := by
  rw [dcCommon, List.mem_filter, mem_listingOf]
  constructor
  · rintro ⟨⟨hv, hs⟩, hr⟩
    exact ⟨hv, hs, ((contains_listingOf n R).mp hr).2⟩
  · rintro ⟨hv, hs, hr⟩
    exact ⟨⟨hv, hs⟩, (contains_listingOf n R).mpr ⟨hv, hr⟩⟩

theorem mem_dcLeftOnly {n : String} {S R : Entries} :
    n ∈ dcLeftOnly S R ↔ visibleName n = true ∧ n ∈ namesE S ∧ n ∉ namesE R := by
  rw [dcLeftOnly, List.mem_filter, mem_listingOf]
  constructor
  · rintro ⟨⟨hv, hs⟩, hr⟩
    refine ⟨hv, hs, fun hmem => ?_⟩
    rw [Bool.not_eq_eq_eq_not, Bool.not_true] at hr
    exact absurd ((contains_listingOf n R).mpr ⟨hv, hmem⟩) (by rw [hr]; simp)
  · rintro ⟨hv, hs, hr⟩
    refine ⟨⟨hv, hs⟩, ?_⟩
    rw [Bool.not_eq_eq_eq_not, Bool.not_true]
    cases hc : (listingOf R).contains n
    · rfl
    · exact absurd ((contains_listingOf n R).mp hc).2 hr

theorem mem_dcRightOnly {n : String} {S R : Entries} :
    n ∈ dcRightOnly S R ↔ visibleName n = true ∧ n ∈ namesE R ∧ n ∉ namesE S := by
  rw [dcRightOnly, List.mem_filter, mem_listingOf]
  constructor
  · rintro ⟨⟨hv, hr⟩, hs⟩
    refine ⟨hv, hr, fun hmem => ?_⟩
    rw [Bool.not_eq_eq_eq_not, Bool.not_true] at hs
    exact absurd ((contains_listingOf n S).mpr ⟨hv, hmem⟩) (by rw [hs]; simp)
  · rintro ⟨hv, hr, hs⟩
    refine ⟨⟨hv, hr⟩, ?_⟩
    rw [Bool.not_eq_eq_eq_not, Bool.not_true]
    cases hc : (listingOf S).contains n
    · rfl
    · exact absurd ((contains_listingOf n S).mp hc).2 hs

theorem mem_dcCommonDirs {n : String} {S R : Entries} :
    n ∈ dcCommonDirs S R ↔
      n ∈ dcCommon S R ∧ isDirO (lookupE n S) = true ∧ isDirO (lookupE n R) = true := by
  rw [dcCommonDirs, List.mem_filter, Bool.and_eq_true]

theorem mem_dcCommonFiles {n : String} {S R : Entries} :
    n ∈ dcCommonFiles S R ↔
      n ∈ dcCommon S R ∧ isFileO (lookupE n S) = true ∧ isFileO (lookupE n R) = true := by
  rw [dcCommonFiles, List.mem_filter, Bool.and_eq_true]

theorem listingOf_nodup {es : Entries} (h : (namesE es).Nodup) : (listingOf es).Nodup :=
  List.Nodup.filter _ h

theorem dcLeftOnly_nodup {S R : Entries} (h : (namesE S).Nodup) : (dcLeftOnly S R).Nodup :=
  List.Nodup.filter _ (listingOf_nodup h)

theorem dcRightOnly_nodup {S R : Entries} (h : (namesE R).Nodup) : (dcRightOnly S R).Nodup :=
  List.Nodup.filter _ (listingOf_nodup h)

theorem dcCommon_nodup {S R : Entries} (h : (namesE S).Nodup) : (dcCommon S R).Nodup :=
  List.Nodup.filter _ (listingOf_nodup h)

theorem dcCommonDirs_nodup {S R : Entries} (h : (namesE S).Nodup) : (dcCommonDirs S R).Nodup :=
  List.Nodup.filter _ (dcCommon_nodup h)

theorem dcCommonFiles_nodup {S R : Entries} (h : (namesE S).Nodup) : (dcCommonFiles S R).Nodup :=
  List.Nodup.filter _ (dcCommon_nodup h)

/-- The four phase lists are pairwise disjoint; these are the facts the
frame reasoning needs. -/
theorem dcLeftOnly_not_common {n : String} {S R : Entries}
    (h : n ∈ dcLeftOnly S R) : n ∉ dcCommon S R := by
  intro hc
  exact (mem_dcLeftOnly.mp h).2.2 (mem_dcCommon.mp hc).2.2

theorem dcRightOnly_not_common {n : String} {S R : Entries}
    (h : n ∈ dcRightOnly S R) : n ∉ dcCommon S R := by
  intro hc
  exact (mem_dcRightOnly.mp h).2.2 (mem_dcCommon.mp hc).2.1

theorem dcCommonFiles_not_dirs {n : String} {S R : Entries}
    (h : n ∈ dcCommonFiles S R) : n ∉ dcCommonDirs S R := by
  intro hd
  have h1 := (mem_dcCommonFiles.mp h).2.1
  have h2 := (mem_dcCommonDirs.mp hd).2.1
  cases hl : lookupE n S with
  | none => rw [hl] at h1; cases h1
  | some t =>
    rw [hl] at h1 h2
    cases t <;> simp [isFileO, isDirO] at h1 h2

/-! ### Generic fold lemmas -/

/-- Frame lemma for a fold: if no processed name can change an
observation g, the observation is preserved. -/
theorem foldl_obs_frame {σ : Type} {β : Type} (F : σ → String → σ) (g : σ → β)
    (I : σ → Prop) :
    ∀ (L : List String) (st : σ),
      I st → (∀ st2 m, I st2 → I (F st2 m)) →
      (∀ st2 m, I st2 → m ∈ L → g (F st2 m) = g st2) →
      g (L.foldl F st) = g st
  | [], st, _, _, _ => rfl
  | m :: L, st, hI, hpres, hF => by
    rw [List.foldl_cons]
    rw [foldl_obs_frame F g I L (F st m) (hpres st m hI) hpres
      (fun st2 k hk hmem => hF st2 k hk (List.mem_cons_of_mem _ hmem))]
    exact hF st m hI (List.mem_cons_self _ _)

/-- Hit lemma for a fold: the processed name n sets the observation to a
fixed value v, and no later processed name changes it. -/
theorem foldl_obs_hit {σ : Type} {β : Type} (F : σ → String → σ) (g : σ → β)
    (I : σ → Prop) (n : String) (v : β) :
    ∀ (L : List String) (st : σ),
      I st → (∀ st2 m, I st2 → I (F st2 m)) →
      L.Nodup → n ∈ L →
      (∀ st2 m, I st2 → m ∈ L → m ≠ n → g (F st2 m) = g st2) →
      (∀ st2, I st2 → g (F st2 n) = v) →
      g (L.foldl F st) = v
  | [], st, _, _, _, hmem, _, _ => absurd hmem (List.not_mem_nil n)
  | m :: L, st, hI, hpres, hnd, hmem, hother, hhit => by
    rw [List.foldl_cons]
    rw [List.nodup_cons] at hnd
    by_cases hm : m = n
    · subst hm
      rw [foldl_obs_frame F g I L (F st m) (hpres st m hI) hpres
        (fun st2 k hk hkmem => hother st2 k hk (List.mem_cons_of_mem _ hkmem)
          (fun hkn => hnd.1 (hkn ▸ hkmem)))]
      exact hhit st hI
    · rcases List.mem_cons.mp hmem with hmn | hmem2
      · exact absurd hmn.symm hm
      · exact foldl_obs_hit F g I n v L (F st m) (hpres st m hI) hpres hnd.2 hmem2
          (fun st2 k hk hkmem => hother st2 k hk (List.mem_cons_of_mem _ hkmem))
          hhit

/-! ### Step lemmas for the three loops -/

theorem lookupE_remove_other {n k : String} (hk : k ≠ n) :
    ∀ es : Entries, lookupE k (removeEntry n es) = lookupE k es
  | [] => rfl
  | (m, u) :: es => by
    rw [removeEntry]
    by_cases hmn : m = n
    · subst hmn
      rw [if_pos rfl, lookupE, if_neg (fun h => hk h.symm)]
    · rw [if_neg hmn, lookupE, lookupE]
      by_cases hm : m = k
      · rw [if_pos hm, if_pos hm]
      · rw [if_neg hm, if_neg hm, lookupE_remove_other hk es]

theorem copyOne_sorted (p : List String) (S : Entries) (st : Entries × List Action)
    (m : String) (h : sortedNames st.1 = true) :
    sortedNames (copyOne p S st m).1 = true := by
  rw [copyOne]
  cases lookupE m S with
  | none => exact h
  | some t => cases t <;> exact insertEntry_sorted _ _ _ h

theorem copyOne_lookup_other (p : List String) (S : Entries) (st : Entries × List Action)
    {m k : String} (h : k ≠ m) :
    lookupE k (copyOne p S st m).1 = lookupE k st.1 := by
  rw [copyOne]
  cases lookupE m S with
  | none => rfl
  | some t => cases t <;> (rw [lookupE_insert, if_neg h])

theorem copyOne_lookup_hit (p : List String) (S : Entries) (st : Entries × List Action)
    {n : String} {t : FsTree} (h : lookupE n S = some t) :
    lookupE n (copyOne p S st n).1 = some t := by
  rw [copyOne, h]
  cases t <;> (rw [lookupE_insert, if_pos rfl])

theorem removeOne_sorted (p : List String) (st : Entries × List Action)
    (m : String) (h : sortedNames st.1 = true) :
    sortedNames (removeOne p st m).1 = true := by
  rw [removeOne]
  cases lookupE m st.1 with
  | none => exact removeEntry_sorted _ _ h
  | some t => cases t <;> exact removeEntry_sorted _ _ h

theorem removeOne_lookup_other (p : List String) (st : Entries × List Action)
    {m k : String} (h : k ≠ m) :
    lookupE k (removeOne p st m).1 = lookupE k st.1 := by
  rw [removeOne]
  cases lookupE m st.1 with
  | none => exact lookupE_remove_other h st.1
  | some t => cases t <;> exact lookupE_remove_other h st.1

theorem removeOne_lookup_hit (p : List String) (st : Entries × List Action)
    (n : String) (hs : sortedNames st.1 = true) :
    lookupE n (removeOne p st n).1 = none := by
  have hnd := sortedNames_nodup hs
  rw [removeOne]
  cases lookupE n st.1 with
  | none => rw [lookupE_remove n st.1 n hnd, if_pos rfl]
  | some t => cases t <;> (rw [lookupE_remove n st.1 n hnd, if_pos rfl])

theorem updateOne_sorted (p : List String) (S : Entries) (st : Entries × List Action)
    (m : String) (h : sortedNames st.1 = true) :
    sortedNames (updateOne p S st m).1 = true := by
  rw [updateOne]
  cases lookupE m S with
  | none => exact h
  | some t =>
    cases t with
    | dir es => exact h
    | file cs =>
      cases lookupE m st.1 with
      | none => exact h
      | some u =>
        cases u with
        | dir es => exact h
        | file cr =>
          dsimp only
          by_cases hd : files_are_different cs cr = true
          · rw [if_pos hd]
            exact insertEntry_sorted _ _ _ h
          · rw [if_neg hd]
            exact h

theorem updateOne_lookup_other (p : List String) (S : Entries) (st : Entries × List Action)
    {m k : String} (h : k ≠ m) :
    lookupE k (updateOne p S st m).1 = lookupE k st.1 := by
  rw [updateOne]
  cases lookupE m S with
  | none => rfl
  | some t =>
    cases t with
    | dir es => rfl
    | file cs =>
      cases lookupE m st.1 with
      | none => rfl
      | some u =>
        cases u with
        | dir es => rfl
        | file cr =>
          dsimp only
          by_cases hd : files_are_different cs cr = true
          · rw [if_pos hd, lookupE_insert, if_neg h]
          · rw [if_neg hd]

theorem updateOne_lookup_hit (p : List String) (S : Entries) (st : Entries × List Action)
    {n : String} {cs cr : List Nat}
    (hS : lookupE n S = some (FsTree.file cs)) (hst : lookupE n st.1 = some (FsTree.file cr)) :
    lookupE n (updateOne p S st n).1 =
      some (FsTree.file (if files_are_different cs cr then cs else cr)) := by
  rw [updateOne, hS, hst]
  dsimp only
  by_cases hd : files_are_different cs cr = true
  · rw [if_pos hd, if_pos hd, lookupE_insert, if_pos rfl]
  · rw [if_neg hd, if_neg hd, hst]

/-! ### Trace lemmas for the three loops -/

theorem foldl_trace {F : Entries × List Action → String → Entries × List Action}
    (P : Action → Prop) :
    ∀ (L : List String) (st : Entries × List Action),
      (∀ st2 m, m ∈ L → ∃ new, (F st2 m).2 = st2.2 ++ new ∧ ∀ a ∈ new, P a) →
      ∃ new, (L.foldl F st).2 = st.2 ++ new ∧ ∀ a ∈ new, P a
  | [], st, _ => ⟨[], by simp⟩
  | m :: L, st, hF => by
    rw [List.foldl_cons]
    rcases hF st m (List.mem_cons_self _ _) with ⟨n1, hn1, hp1⟩
    rcases foldl_trace P L (F st m)
        (fun st2 k hk => hF st2 k (List.mem_cons_of_mem _ hk)) with ⟨n2, hn2, hp2⟩
    refine ⟨n1 ++ n2, ?_, ?_⟩
    · rw [hn2, hn1, List.append_assoc]
    · intro a ha
      rcases List.mem_append.mp ha with ha | ha
      · exact hp1 a ha
      · exact hp2 a ha

theorem copyOne_trace (p : List String) (S : Entries) (st : Entries × List Action)
    (m : String) :
    ∃ new, (copyOne p S st m).2 = st.2 ++ new ∧
      ∀ a ∈ new, a = Action.copiedDir (p ++ [m]) ∨ a = Action.copiedFile (p ++ [m]) := by
  rw [copyOne]
  cases lookupE m S with
  | none => exact ⟨[], by simp⟩
  | some t =>
    cases t with
    | dir es => exact ⟨[Action.copiedDir (p ++ [m])], rfl, by simp⟩
    | file c => exact ⟨[Action.copiedFile (p ++ [m])], rfl, by simp⟩

theorem removeOne_trace (p : List String) (st : Entries × List Action) (m : String) :
    ∃ new, (removeOne p st m).2 = st.2 ++ new ∧
      ∀ a ∈ new, a = Action.removedDir (p ++ [m]) ∨ a = Action.removedFile (p ++ [m]) := by
  rw [removeOne]
  cases lookupE m st.1 with
  | none => exact ⟨[Action.removedFile (p ++ [m])], rfl, by simp⟩
  | some t =>
    cases t with
    | dir es => exact ⟨[Action.removedDir (p ++ [m])], rfl, by simp⟩
    | file c => exact ⟨[Action.removedFile (p ++ [m])], rfl, by simp⟩

/-- Trace of the common_files loop, with the digest evidence recorded
against the pre-loop replica state R0. -/
theorem updateFold_trace (p : List String) (S R0 : Entries) :
    ∀ (L : List String) (st : Entries × List Action),
      L.Nodup →
      (∀ k ∈ L, lookupE k st.1 = lookupE k R0) →
      ∃ new, (L.foldl (updateOne p S) st).2 = st.2 ++ new ∧
        ∀ a ∈ new, ∃ m cs cr, m ∈ L ∧ a = Action.updatedFile (p ++ [m]) ∧
          lookupE m S = some (FsTree.file cs) ∧ lookupE m R0 = some (FsTree.file cr) ∧
          files_are_different cs cr = true
  | [], st, _, _ => ⟨[], by simp⟩
  | m :: L, st, hnd, hlk => by
    rw [List.foldl_cons]
    rw [List.nodup_cons] at hnd
    have hstep : ∃ new, (updateOne p S st m).2 = st.2 ++ new ∧
        ∀ a ∈ new, ∃ cs cr, a = Action.updatedFile (p ++ [m]) ∧
          lookupE m S = some (FsTree.file cs) ∧ lookupE m R0 = some (FsTree.file cr) ∧
          files_are_different cs cr = true := by
      rw [updateOne]
      cases hS : lookupE m S with
      | none => exact ⟨[], by simp⟩
      | some t =>
        cases t with
        | dir es => exact ⟨[], by simp⟩
        | file cs =>
          cases hR : lookupE m st.1 with
          | none => exact ⟨[], by simp⟩
          | some u =>
            cases u with
            | dir es => exact ⟨[], by simp⟩
            | file cr =>
              dsimp only
              by_cases hd : files_are_different cs cr = true
              · rw [if_pos hd]
                refine ⟨[Action.updatedFile (p ++ [m])], rfl, ?_⟩
                intro a ha
                rw [List.mem_singleton] at ha
                refine ⟨cs, cr, ha, rfl, ?_, hd⟩
                rw [← hR]
                exact (hlk m (List.mem_cons_self _ _)).symm
              · rw [if_neg hd]
                exact ⟨[], by simp⟩
    rcases hstep with ⟨n1, hn1, hp1⟩
    have hlk2 : ∀ k ∈ L, lookupE k (updateOne p S st m).1 = lookupE k R0 := by
      intro k hk
      have hkm : k ≠ m := fun he => hnd.1 (he ▸ hk)
      rw [updateOne_lookup_other p S st hkm]
      exact hlk k (List.mem_cons_of_mem _ hk)
    rcases updateFold_trace p S R0 L (updateOne p S st m) hnd.2 hlk2 with ⟨n2, hn2, hp2⟩
    refine ⟨n1 ++ n2, ?_, ?_⟩
    · rw [hn2, hn1, List.append_assoc]
    · intro a ha
      rcases List.mem_append.mp ha with ha | ha
      · rcases hp1 a ha with ⟨cs, cr, h1, h2, h3, h4⟩
        exact ⟨m, cs, cr, List.mem_cons_self _ _, h1, h2, h3, h4⟩
      · rcases hp2 a ha with ⟨k, cs, cr, hk, h1, h2, h3, h4⟩
        exact ⟨k, cs, cr, List.mem_cons_of_mem _ hk, h1, h2, h3, h4⟩

/-! ### The action log is append-only and does not influence the state -/

/-- A loop step whose new state ignores the log so far and whose log
grows by appending. -/
def stepShifts (F : Entries × List Action → String → Entries × List Action) : Prop :=
  ∀ s acts m, F (s, acts) m = ((F (s, []) m).1, acts ++ (F (s, []) m).2)

theorem copyOne_shifts (p : List String) (S : Entries) : stepShifts (copyOne p S) := by
  intro s acts m
  rw [copyOne, copyOne]
  cases lookupE m S with
  | none => simp
  | some t => cases t <;> simp

theorem removeOne_shifts (p : List String) : stepShifts (removeOne p) := by
  intro s acts m
  rw [removeOne, removeOne]
  cases lookupE m s with
  | none => simp
  | some t => cases t <;> simp

theorem updateOne_shifts (p : List String) (S : Entries) : stepShifts (updateOne p S) := by
  intro s acts m
  rw [updateOne, updateOne]
  cases lookupE m S with
  | none => simp
  | some t =>
    cases t with
    | dir es => simp
    | file cs =>
      cases lookupE m s with
      | none => simp
      | some u =>
        cases u with
        | dir es => simp
        | file cr =>
          dsimp only
          by_cases hd : files_are_different cs cr = true
          · rw [if_pos hd, if_pos hd]
            simp
          · rw [if_neg hd, if_neg hd]
            simp

theorem foldl_shift {F : Entries × List Action → String → Entries × List Action}
    (hF : stepShifts F) :
    ∀ (L : List String) (s : Entries) (acts : List Action),
      L.foldl F (s, acts) = ((L.foldl F (s, [])).1, acts ++ (L.foldl F (s, [])).2)
  | [], s, acts => by simp
  | m :: L, s, acts => by
    rw [List.foldl_cons, List.foldl_cons, hF s acts m, hF s [] m, List.nil_append]
    rw [foldl_shift hF L (F (s, []) m).1 (acts ++ (F (s, []) m).2),
      foldl_shift hF L (F (s, []) m).1 (F (s, []) m).2]
    simp [List.append_assoc]

/-- A state transformer whose log is append-only and ignored by the
resulting state. -/
def fnShifts (G : Entries × List Action → Entries × List Action) : Prop :=
  ∀ s acts, G (s, acts) = ((G (s, [])).1, acts ++ (G (s, [])).2)

theorem fnShifts_comp {G H : Entries × List Action → Entries × List Action}
    (hG : fnShifts G) (hH : fnShifts H) : fnShifts (fun st => H (G st)) := by
  intro s acts
  show H (G (s, acts)) = ((H (G (s, []))).1, acts ++ (H (G (s, []))).2)
  rw [hG s acts]
  rw [hH (G (s, [])).1 (acts ++ (G (s, [])).2)]
  have heta : G (s, []) = ((G (s, [])).1, (G (s, [])).2) := rfl
  rw [heta, hH (G (s, [])).1 (G (s, [])).2]
  simp [List.append_assoc]

theorem foldl_fnShifts {F : Entries × List Action → String → Entries × List Action}
    (hF : stepShifts F) (L : List String) : fnShifts (fun st => L.foldl F st) := by
  intro s acts
  exact foldl_shift hF L s acts

theorem phases123_shifts (p : List String) (S R : Entries) : fnShifts (phases123 p S R) := by
  have h12 := fnShifts_comp (foldl_fnShifts (copyOne_shifts p S) (dcLeftOnly S R))
    (foldl_fnShifts (removeOne_shifts p) (dcRightOnly S R))
  have h123 := fnShifts_comp h12 (foldl_fnShifts (updateOne_shifts p S) (dcCommonFiles S R))
  intro s acts
  exact h123 s acts

theorem syncDirs_shift (p : List String) :
    ∀ (ents : Entries) (cds : List String) (s : Entries) (acts : List Action),
      syncDirs p ents cds (s, acts) =
        ((syncDirs p ents cds (s, [])).1, acts ++ (syncDirs p ents cds (s, [])).2)
  | [], cds, s, acts => by
    rw [syncDirs, syncDirs]
    simp
  | (n, t) :: rest, cds, s, acts => by
    rw [syncDirs, syncDirs]
    by_cases hc : cds.contains n = true
    · rw [if_pos hc, if_pos hc]
      dsimp only
      cases lookupE n s with
      | none =>
        dsimp only
        rw [List.nil_append]
        rw [syncDirs_shift p rest cds (insertEntry n (syncSub (p ++ [n]) t none).1 s)
            (acts ++ (syncSub (p ++ [n]) t none).2),
          syncDirs_shift p rest cds (insertEntry n (syncSub (p ++ [n]) t none).1 s)
            ((syncSub (p ++ [n]) t none).2)]
        simp [List.append_assoc]
      | some er =>
        cases er with
        | file c =>
          dsimp only
          exact syncDirs_shift p rest cds s acts
        | dir er =>
          dsimp only
          rw [List.nil_append]
          rw [syncDirs_shift p rest cds (insertEntry n (syncSub (p ++ [n]) t (some er)).1 s)
              (acts ++ (syncSub (p ++ [n]) t (some er)).2),
            syncDirs_shift p rest cds (insertEntry n (syncSub (p ++ [n]) t (some er)).1 s)
              ((syncSub (p ++ [n]) t (some er)).2)]
          simp [List.append_assoc]
    · rw [if_neg hc, if_neg hc]
      exact syncDirs_shift p rest cds s acts

/-- sync_folders on a missing replica directory: the directory is
created first (one created-directory action at the head of the log) and
the reconciliation then proceeds exactly as against an existing empty
replica directory. -/
theorem sync_folders_none_eq (p : List String) (S : Entries) :
    sync_folders p S none =
      ((sync_folders p S (some [])).1,
        Action.createdDir p :: (sync_folders p S (some [])).2) := by
  rw [sync_folders, sync_folders]
  show syncDirs p S (dcCommonDirs S []) (phases123 p S [] ([], [Action.createdDir p])) =
    ((syncDirs p S (dcCommonDirs S []) (phases123 p S [] ([], []))).1,
      Action.createdDir p :: (syncDirs p S (dcCommonDirs S []) (phases123 p S [] ([], []))).2)
  rw [phases123_shifts p S [] [] [Action.createdDir p]]
  have heta : phases123 p S [] ([], []) =
      ((phases123 p S [] ([], [])).1, (phases123 p S [] ([], [])).2) := rfl
  rw [heta, phases123_shifts p S [] [] []]
  rw [syncDirs_shift p S (dcCommonDirs S []) (phases123 p S [] ([], [])).1
      ([Action.createdDir p] ++ ([] ++ (phases123 p S [] ([], [])).2)),
    syncDirs_shift p S (dcCommonDirs S []) (phases123 p S [] ([], [])).1
      ([] ++ (phases123 p S [] ([], [])).2)]
  simp [List.append_assoc]

/-! ### Lookup characterization of the three loops -/

theorem foldl_pred {σ : Type} (F : σ → String → σ) (I : σ → Prop) :
    ∀ (L : List String) (st : σ), I st → (∀ st2 m, I st2 → I (F st2 m)) →
      I (L.foldl F st)
  | [], st, h, _ => h
  | m :: L, st, h, hpres =>
    foldl_pred F I L (F st m) (hpres st m h) hpres

theorem isDirO_eq {o : Option FsTree} (h : isDirO o = true) :
    ∃ es, o = some (FsTree.dir es) := by
  cases o with
  | none => cases h
  | some t =>
    cases t with
    | file c => cases h
    | dir es => exact ⟨es, rfl⟩

theorem isFileO_eq {o : Option FsTree} (h : isFileO o = true) :
    ∃ c, o = some (FsTree.file c) := by
  cases o with
  | none => cases h
  | some t =>
    cases t with
    | dir es => cases h
    | file c => exact ⟨c, rfl⟩

theorem phases123_sorted (p : List String) (S R : Entries) (st : Entries × List Action)
    (h : sortedNames st.1 = true) : sortedNames (phases123 p S R st).1 = true := by
  rw [phases123]
  refine foldl_pred _ (fun st2 => sortedNames st2.1 = true) _ _ ?_
    (fun st2 m h2 => updateOne_sorted p S st2 m h2)
  refine foldl_pred _ (fun st2 => sortedNames st2.1 = true) _ _ ?_
    (fun st2 m h2 => removeOne_sorted p st2 m h2)
  exact foldl_pred _ (fun st2 => sortedNames st2.1 = true) _ _ h
    (fun st2 m h2 => copyOne_sorted p S st2 m h2)

/-- Hit lemma for the common_files loop: the digest test reads the state
the loop reached, so this is proved by direct induction. -/
theorem updateFold_hit (p : List String) (S : Entries) :
    ∀ (L : List String) (st : Entries × List Action) (n : String) (cs cr : List Nat),
      L.Nodup → n ∈ L → sortedNames st.1 = true →
      lookupE n S = some (FsTree.file cs) → lookupE n st.1 = some (FsTree.file cr) →
      lookupE n (L.foldl (updateOne p S) st).1 =
        some (FsTree.file (if files_are_different cs cr then cs else cr))
  | [], _, n, _, _, _, hmem, _, _, _ => absurd hmem (List.not_mem_nil n)
  | m :: L, st, n, cs, cr, hnd, hmem, hsort, hS, hst => by
    rw [List.foldl_cons]
    rw [List.nodup_cons] at hnd
    by_cases hm : m = n
    · subst hm
      have hhit := updateOne_lookup_hit p S st hS hst
      rw [foldl_obs_frame (updateOne p S) (fun st2 => lookupE m st2.1)
        (fun st2 => sortedNames st2.1 = true) L (updateOne p S st m)
        (updateOne_sorted p S st m hsort)
        (fun st2 k h2 => updateOne_sorted p S st2 k h2)
        (fun st2 k _ hk => updateOne_lookup_other p S st2 (fun he => hnd.1 (he ▸ hk)))]
      exact hhit
    · rcases List.mem_cons.mp hmem with he | hmem2
      · exact absurd he.symm hm
      · have hfr : lookupE n (updateOne p S st m).1 = lookupE n st.1 :=
          updateOne_lookup_other p S st (fun he => hm he.symm)
        exact updateFold_hit p S L (updateOne p S st m) n cs cr hnd.2 hmem2
          (updateOne_sorted p S st m hsort) hS (hfr ▸ hst)

/-- What the three non-recursive loops leave at each name, computed from
the dircmp partition of the pair (S, R). -/
theorem phases123_lookup (p : List String) (S R : Entries) (mk : List Action) (n : String)
    (hS : (namesE S).Nodup) (hR : sortedNames R = true) :
    lookupE n (phases123 p S R (R, mk)).1 =
      if n ∈ dcLeftOnly S R then lookupE n S
      else if n ∈ dcRightOnly S R then none
      else if n ∈ dcCommonFiles S R then
        (match lookupE n S, lookupE n R with
         | some (FsTree.file cs), some (FsTree.file cr) =>
             some (FsTree.file (if files_are_different cs cr then cs else cr))
         | _, _ => lookupE n R)
      else lookupE n R := by
  have hsorted1 : sortedNames ((dcLeftOnly S R).foldl (copyOne p S) (R, mk)).1 = true :=
    foldl_pred _ (fun st2 => sortedNames st2.1 = true) _ _ hR
      (fun st2 m h2 => copyOne_sorted p S st2 m h2)
  have hsorted2 : sortedNames ((dcRightOnly S R).foldl (removeOne p)
      ((dcLeftOnly S R).foldl (copyOne p S) (R, mk))).1 = true :=
    foldl_pred _ (fun st2 => sortedNames st2.1 = true) _ _ hsorted1
      (fun st2 m h2 => removeOne_sorted p st2 m h2)
  rw [phases123]
  by_cases h1 : n ∈ dcLeftOnly S R
  · rw [if_pos h1]
    have hmem := mem_dcLeftOnly.mp h1
    rcases Option.isSome_iff_exists.mp ((lookupE_isSome_iff n S).mpr hmem.2.1) with ⟨t, ht⟩
    have hhit1 : lookupE n ((dcLeftOnly S R).foldl (copyOne p S) (R, mk)).1 = some t :=
      foldl_obs_hit (copyOne p S) (fun st2 => lookupE n st2.1)
        (fun st2 => sortedNames st2.1 = true) n (some t) (dcLeftOnly S R) (R, mk)
        hR (fun st2 k h2 => copyOne_sorted p S st2 k h2)
        (dcLeftOnly_nodup hS) h1
        (fun st2 k _ _ hk => copyOne_lookup_other p S st2 (fun he => hk he.symm))
        (fun st2 _ => copyOne_lookup_hit p S st2 ht)
    have hfr2 : lookupE n ((dcRightOnly S R).foldl (removeOne p)
        ((dcLeftOnly S R).foldl (copyOne p S) (R, mk))).1 = some t := by
      rw [foldl_obs_frame (removeOne p) (fun st2 => lookupE n st2.1)
        (fun st2 => sortedNames st2.1 = true) _ _ hsorted1
        (fun st2 k h2 => removeOne_sorted p st2 k h2)
        (fun st2 k _ hk => removeOne_lookup_other p st2
          (fun he => absurd (he ▸ hk) (fun hmem2 =>
            hmem.2.2 (mem_dcRightOnly.mp hmem2).2.1)))]
      exact hhit1
    rw [foldl_obs_frame (updateOne p S) (fun st2 => lookupE n st2.1)
      (fun st2 => sortedNames st2.1 = true) _ _ hsorted2
      (fun st2 k h2 => updateOne_sorted p S st2 k h2)
      (fun st2 k _ hk => updateOne_lookup_other p S st2
        (fun he => absurd (he ▸ hk) (fun hmem2 =>
          hmem.2.2 (mem_dcCommon.mp (mem_dcCommonFiles.mp hmem2).1).2.2)))]
    rw [hfr2, ht]
  · rw [if_neg h1]
    have hfr1 : lookupE n ((dcLeftOnly S R).foldl (copyOne p S) (R, mk)).1 = lookupE n R :=
      foldl_obs_frame (copyOne p S) (fun st2 => lookupE n st2.1)
        (fun st2 => sortedNames st2.1 = true) _ _ hR
        (fun st2 k h2 => copyOne_sorted p S st2 k h2)
        (fun st2 k _ hk => copyOne_lookup_other p S st2 (fun he => absurd (he ▸ hk) h1))
    by_cases h2 : n ∈ dcRightOnly S R
    · rw [if_pos h2]
      have hhit2 : lookupE n ((dcRightOnly S R).foldl (removeOne p)
          ((dcLeftOnly S R).foldl (copyOne p S) (R, mk))).1 = none :=
        foldl_obs_hit (removeOne p) (fun st2 => lookupE n st2.1)
          (fun st2 => sortedNames st2.1 = true) n none (dcRightOnly S R) _
          hsorted1 (fun st2 k h3 => removeOne_sorted p st2 k h3)
          (dcRightOnly_nodup (sortedNames_nodup hR)) h2
          (fun st2 k _ _ hk => removeOne_lookup_other p st2 (fun he => hk he.symm))
          (fun st2 h3 => removeOne_lookup_hit p st2 n h3)
      rw [foldl_obs_frame (updateOne p S) (fun st2 => lookupE n st2.1)
        (fun st2 => sortedNames st2.1 = true) _ _ hsorted2
        (fun st2 k h3 => updateOne_sorted p S st2 k h3)
        (fun st2 k _ hk => updateOne_lookup_other p S st2
          (fun he => absurd (he ▸ hk) (fun hmem2 =>
            (mem_dcRightOnly.mp h2).2.2 (mem_dcCommon.mp (mem_dcCommonFiles.mp hmem2).1).2.1)))]
      exact hhit2
    · rw [if_neg h2]
      have hfr2 : lookupE n ((dcRightOnly S R).foldl (removeOne p)
          ((dcLeftOnly S R).foldl (copyOne p S) (R, mk))).1 = lookupE n R := by
        rw [foldl_obs_frame (removeOne p) (fun st2 => lookupE n st2.1)
          (fun st2 => sortedNames st2.1 = true) _ _ hsorted1
          (fun st2 k h3 => removeOne_sorted p st2 k h3)
          (fun st2 k _ hk => removeOne_lookup_other p st2 (fun he => absurd (he ▸ hk) h2))]
        exact hfr1
      by_cases h3 : n ∈ dcCommonFiles S R
      · rw [if_pos h3]
        have hmf := mem_dcCommonFiles.mp h3
        rcases isFileO_eq hmf.2.1 with ⟨cs, hcs⟩
        rcases isFileO_eq hmf.2.2 with ⟨cr, hcr⟩
        rw [hcs, hcr]
        dsimp only
        exact updateFold_hit p S (dcCommonFiles S R) _ n cs cr
          (dcCommonFiles_nodup hS) h3 hsorted2 hcs (by rw [hfr2, hcr])
      · rw [if_neg h3]
        rw [foldl_obs_frame (updateOne p S) (fun st2 => lookupE n st2.1)
          (fun st2 => sortedNames st2.1 = true) _ _ hsorted2
          (fun st2 k h4 => updateOne_sorted p S st2 k h4)
          (fun st2 k _ hk => updateOne_lookup_other p S st2 (fun he => absurd (he ▸ hk) h3))]
        exact hfr2

/-! ### Lookup characterization of the common_dirs loop -/

theorem syncDirs_frame (p : List String) :
    ∀ (ents : Entries) (cds : List String) (st : Entries × List Action) (n : String),
      (cds.contains n ≠ true ∨ n ∉ namesE ents) →
      lookupE n (syncDirs p ents cds st).1 = lookupE n st.1
  | [], cds, st, n, _ => by rw [syncDirs]
  | (m, t) :: rest, cds, st, n, h => by
    have hrest : cds.contains n ≠ true ∨ n ∉ namesE rest := by
      rcases h with h | h
      · exact Or.inl h
      · exact Or.inr (fun hm => h (List.mem_cons_of_mem _ hm))
    rw [syncDirs]
    by_cases hc : cds.contains m = true
    · have hmn : m ≠ n := by
        rcases h with h | h
        · intro he
          exact h (he ▸ hc)
        · intro he
          exact h (by rw [← he]; exact List.mem_cons_self _ _)
      rw [if_pos hc]
      dsimp only
      cases lookupE m st.1 with
      | none =>
        dsimp only
        rw [syncDirs_frame p rest cds _ n hrest, lookupE_insert,
          if_neg (fun he => hmn he.symm)]
      | some er =>
        cases er with
        | file c =>
          dsimp only
          rw [syncDirs_frame p rest cds st n hrest]
        | dir er =>
          dsimp only
          rw [syncDirs_frame p rest cds _ n hrest, lookupE_insert,
            if_neg (fun he => hmn he.symm)]
    · rw [if_neg hc]
      exact syncDirs_frame p rest cds st n hrest

theorem syncDirs_hit (p : List String) :
    ∀ (ents : Entries) (cds : List String) (st : Entries × List Action)
      (n : String) (es er : Entries),
      (namesE ents).Nodup → (n, FsTree.dir es) ∈ ents → cds.contains n = true →
      lookupE n st.1 = some (FsTree.dir er) →
      lookupE n (syncDirs p ents cds st).1 =
        some (FsTree.dir (sync_folders (p ++ [n]) es (some er)).1)
  | [], _, _, n, _, _, _, hmem, _, _ => absurd hmem (List.not_mem_nil _)
  | (m, t) :: rest, cds, st, n, es, er, hnd, hmem, hc, hst => by
    rw [namesE_cons, List.nodup_cons] at hnd
    rw [syncDirs]
    by_cases hmn : m = n
    · subst hmn
      have hts : t = FsTree.dir es := by
        rcases List.mem_cons.mp hmem with he | hmem2
        · exact (Prod.mk.injEq _ _ _ _ ▸ he.symm).2
        · exact absurd (List.mem_map.mpr ⟨(m, FsTree.dir es), hmem2, rfl⟩) hnd.1
      subst hts
      rw [if_pos hc]
      dsimp only
      rw [hst]
      dsimp only
      rw [syncDirs_frame p rest cds _ m (Or.inr hnd.1), lookupE_insert, if_pos rfl,
        syncSub_dir]
    · have hmem2 : (n, FsTree.dir es) ∈ rest := by
        rcases List.mem_cons.mp hmem with he | hmem2
        · exact absurd (congrArg Prod.fst he).symm hmn
        · exact hmem2
      by_cases hcm : cds.contains m = true
      · rw [if_pos hcm]
        dsimp only
        cases lookupE m st.1 with
        | none =>
          dsimp only
          refine syncDirs_hit p rest cds _ n es er hnd.2 hmem2 hc ?_
          rw [lookupE_insert, if_neg (fun he => hmn he.symm)]
          exact hst
        | some u =>
          cases u with
          | file c =>
            dsimp only
            exact syncDirs_hit p rest cds st n es er hnd.2 hmem2 hc hst
          | dir er2 =>
            dsimp only
            refine syncDirs_hit p rest cds _ n es er hnd.2 hmem2 hc ?_
            rw [lookupE_insert, if_neg (fun he => hmn he.symm)]
            exact hst
      · rw [if_neg hcm]
        exact syncDirs_hit p rest cds st n es er hnd.2 hmem2 hc hst

/-! ### The per-name characterization of one sync_folders call -/

/-- What one sync_folders call leaves at each name of the replica,
according to the dircmp partition: left_only names are copied from the
source, right_only names are deleted, differing common files are
overwritten, common subdirectories are reconciled recursively, and
every other name (common_funny entries, names on the hide or ignore
list, absent names) is left exactly as the replica had it. -/
theorem sync_lookup (p : List String) (S R : Entries) (n : String)
    (hS : wfE S = true) (hR : wfE R = true) :
    lookupE n (sync_folders p S (some R)).1 =
      if n ∈ dcLeftOnly S R then lookupE n S
      else if n ∈ dcRightOnly S R then none
      else if n ∈ dcCommonFiles S R then
        (match lookupE n S, lookupE n R with
         | some (FsTree.file cs), some (FsTree.file cr) =>
             some (FsTree.file (if files_are_different cs cr then cs else cr))
         | _, _ => lookupE n R)
      else if n ∈ dcCommonDirs S R then
        (match lookupE n S, lookupE n R with
         | some (FsTree.dir es), some (FsTree.dir er) =>
             some (FsTree.dir (sync_folders (p ++ [n]) es (some er)).1)
         | _, _ => lookupE n R)
      else lookupE n R := by
  have hSnd : (namesE S).Nodup := wfE_nodup hS
  have hRs : sortedNames R = true := wfE_sorted hR
  rw [sync_folders]
  show lookupE n (syncDirs p S (dcCommonDirs S R) (phases123 p S R (R, []))).1 = _
  by_cases h4 : n ∈ dcCommonDirs S R
  · have hmd := mem_dcCommonDirs.mp h4
    rcases isDirO_eq hmd.2.1 with ⟨es, hes⟩
    rcases isDirO_eq hmd.2.2 with ⟨er, her⟩
    have h1 : n ∉ dcLeftOnly S R :=
      fun hmem => (mem_dcLeftOnly.mp hmem).2.2 (mem_dcCommon.mp hmd.1).2.2
    have h2 : n ∉ dcRightOnly S R :=
      fun hmem => (mem_dcRightOnly.mp hmem).2.2 (mem_dcCommon.mp hmd.1).2.1
    have h3 : n ∉ dcCommonFiles S R := fun hmem => dcCommonFiles_not_dirs hmem h4
    rw [if_neg h1, if_neg h2, if_neg h3, if_pos h4, hes, her]
    dsimp only
    have hph : lookupE n (phases123 p S R (R, [])).1 = some (FsTree.dir er) := by
      rw [phases123_lookup p S R [] n hSnd hRs, if_neg h1, if_neg h2, if_neg h3, her]
    exact syncDirs_hit p S (dcCommonDirs S R) _ n es er hSnd (lookupE_mem hes)
      ((containsF_iff _ _).mpr h4) hph
  · rw [syncDirs_frame p S (dcCommonDirs S R) _ n
      (Or.inl (fun hch => h4 ((containsF_iff _ _).mp hch)))]
    rw [phases123_lookup p S R [] n hSnd hRs]
    by_cases h1 : n ∈ dcLeftOnly S R
    · rw [if_pos h1, if_pos h1]
    · rw [if_neg h1, if_neg h1]
      by_cases h2 : n ∈ dcRightOnly S R
      · rw [if_pos h2, if_pos h2]
      · rw [if_neg h2, if_neg h2]
        by_cases h3 : n ∈ dcCommonFiles S R
        · rw [if_pos h3, if_pos h3]
        · rw [if_neg h3, if_neg h3, if_neg h4]

/-! ### Well-formedness preservation -/

theorem copyOne_wf (p : List String) (S : Entries) (st : Entries × List Action)
    (m : String) (hS : wfChildren S = true) (h : wfE st.1 = true) :
    wfE (copyOne p S st m).1 = true := by
  rw [copyOne]
  cases hl : lookupE m S with
  | none => exact h
  | some t =>
    have ht : t.wfB = true := (wfChildren_iff S).mp hS (m, t) (lookupE_mem hl)
    cases t <;> exact wfE_insert h ht

theorem removeOne_wf (p : List String) (st : Entries × List Action)
    (m : String) (h : wfE st.1 = true) : wfE (removeOne p st m).1 = true := by
  rw [removeOne]
  cases lookupE m st.1 with
  | none => exact wfE_remove h
  | some t => cases t <;> exact wfE_remove h

theorem updateOne_wf (p : List String) (S : Entries) (st : Entries × List Action)
    (m : String) (h : wfE st.1 = true) : wfE (updateOne p S st m).1 = true := by
  rw [updateOne]
  cases lookupE m S with
  | none => exact h
  | some t =>
    cases t with
    | dir es => exact h
    | file cs =>
      cases lookupE m st.1 with
      | none => exact h
      | some u =>
        cases u with
        | dir es => exact h
        | file cr =>
          dsimp only
          by_cases hd : files_are_different cs cr = true
          · rw [if_pos hd]
            exact wfE_insert h rfl
          · rw [if_neg hd]
            exact h

theorem phases123_wf (p : List String) (S R : Entries) (st : Entries × List Action)
    (hS : wfChildren S = true) (h : wfE st.1 = true) :
    wfE (phases123 p S R st).1 = true := by
  rw [phases123]
  refine foldl_pred _ (fun st2 => wfE st2.1 = true) _ _ ?_
    (fun st2 m h2 => updateOne_wf p S st2 m h2)
  refine foldl_pred _ (fun st2 => wfE st2.1 = true) _ _ ?_
    (fun st2 m h2 => removeOne_wf p st2 m h2)
  exact foldl_pred _ (fun st2 => wfE st2.1 = true) _ _ h
    (fun st2 m h2 => copyOne_wf p S st2 m hS h2)

/-- Well-formedness of an optional replica listing. -/
def wfO : Option Entries → Prop
  | some er => wfE er = true
  | none => True

mutual
theorem syncSub_wf : ∀ (p : List String) (t : FsTree) (rep : Option Entries),
    t.wfB = true → wfO rep → (syncSub p t rep).1.wfB = true
  | p, FsTree.file c, rep, _, _ => rfl
  | p, FsTree.dir es, rep, ht, hrep => by
    rw [syncSub_dir]
    rw [wfB_dir_iff] at ht ⊢
    rw [sync_folders]
    have hst : wfE (phases123 p es (rep.getD []) (rep.getD [], mkdirActions p rep)).1 = true := by
      refine phases123_wf p es (rep.getD []) _ ?_ ?_
      · rw [wfE, Bool.and_eq_true] at ht
        exact ht.2
      · cases rep with
        | none => exact rfl
        | some er => exact hrep
    refine syncDirs_wf p es (dcCommonDirs es (rep.getD [])) _ ?_ hst
    rw [wfE, Bool.and_eq_true] at ht
    exact ht.2

theorem syncDirs_wf : ∀ (p : List String) (ents : Entries) (cds : List String)
      (st : Entries × List Action),
    wfChildren ents = true → wfE st.1 = true →
    wfE (syncDirs p ents cds st).1 = true
  | p, [], cds, st, _, hst => by
    rw [syncDirs]
    exact hst
  | p, (n, t) :: rest, cds, st, hch, hst => by
    rw [wfChildren, Bool.and_eq_true] at hch
    rw [syncDirs]
    by_cases hc : cds.contains n = true
    · rw [if_pos hc]
      dsimp only
      cases hl : lookupE n st.1 with
      | none =>
        dsimp only
        refine syncDirs_wf p rest cds _ hch.2 ?_
        exact wfE_insert hst (syncSub_wf (p ++ [n]) t none hch.1 trivial)
      | some er =>
        cases er with
        | file c =>
          dsimp only
          exact syncDirs_wf p rest cds st hch.2 hst
        | dir er =>
          dsimp only
          refine syncDirs_wf p rest cds _ hch.2 ?_
          refine wfE_insert hst (syncSub_wf (p ++ [n]) t (some er) hch.1 ?_)
          have her : (FsTree.dir er).wfB = true := wfE_lookup hst hl
          rw [wfB_dir_iff] at her
          exact her
    · rw [if_neg hc]
      exact syncDirs_wf p rest cds st hch.2 hst
end

/-- One sync_folders call keeps the replica listing well-formed. -/
theorem sync_folders_wf (p : List String) (S : Entries) (rep : Option Entries)
    (hS : wfE S = true) (hrep : wfO rep) :
    wfE (sync_folders p S rep).1 = true := by
  have hd : (FsTree.dir S).wfB = true := (wfB_dir_iff S).mpr hS
  have := syncSub_wf p (FsTree.dir S) rep hd hrep
  rw [syncSub_dir, wfB_dir_iff] at this
  exact this

/-! ### The converged predicate: the comparison finds nothing to do -/

/-- The common_files loop would log no update: no common file pair has
differing digests. -/
def noDiffFiles (S R : Entries) : List String → Bool
  | [] => true
  | n :: ns =>
    (match lookupE n S, lookupE n R with
     | some (FsTree.file cs), some (FsTree.file cr) => !files_are_different cs cr
     | _, _ => true) && noDiffFiles S R ns

mutual
/-- A source subtree is converged against a replica listing: one
sync_folders call on the pair performs no action.  The file case is
unreachable (the predicate is only consulted for directories). -/
def convergedSub : FsTree → Entries → Bool
  | FsTree.file _, _ => true
  | FsTree.dir es, er =>
    decide (dcLeftOnly es er = []) && decide (dcRightOnly es er = []) &&
    noDiffFiles es er (dcCommonFiles es er) && convergedDirs es (dcCommonDirs es er) er

/-- The recursive part of convergedSub over the common subdirectories. -/
def convergedDirs : Entries → List String → Entries → Bool
  | [], _, _ => true
  | (n, t) :: rest, cds, er =>
    (if cds.contains n then
       match lookupE n er with
       | some (FsTree.dir er2) => convergedSub t er2
       | _ => true
     else true) && convergedDirs rest cds er
end

/-- A directory pair is converged when its listings compare clean,
recursively. -/
def convergedB (S R : Entries) : Bool := convergedSub (FsTree.dir S) R

theorem convergedB_eq (S R : Entries) :
    convergedB S R =
      (decide (dcLeftOnly S R = []) && decide (dcRightOnly S R = []) &&
        noDiffFiles S R (dcCommonFiles S R) && convergedDirs S (dcCommonDirs S R) R) := by
  rw [convergedB, convergedSub]

theorem files_are_different_self (c : List Nat) : files_are_different c c = false := by
  simp [files_are_different]

theorem noDiffFiles_iff (S R : Entries) :
    ∀ L : List String, noDiffFiles S R L = true ↔
      ∀ n ∈ L, ∀ cs cr, lookupE n S = some (FsTree.file cs) →
        lookupE n R = some (FsTree.file cr) → files_are_different cs cr = false
  | [] => by simp [noDiffFiles]
  | n :: L => by
    rw [noDiffFiles, Bool.and_eq_true, noDiffFiles_iff S R L]
    constructor
    · rintro ⟨h1, h2⟩ k hk cs cr hcs hcr
      rcases List.mem_cons.mp hk with rfl | hk
      · rw [hcs, hcr] at h1
        dsimp only at h1
        rw [Bool.not_eq_eq_eq_not, Bool.not_true] at h1
        exact h1
      · exact h2 k hk cs cr hcs hcr
    · intro h
      constructor
      · cases hcs : lookupE n S with
        | none => rfl
        | some t =>
          cases t with
          | dir es => rfl
          | file cs =>
            cases hcr : lookupE n R with
            | none => rfl
            | some u =>
              cases u with
              | dir es => rfl
              | file cr =>
                dsimp only
                rw [h n (List.mem_cons_self _ _) cs cr hcs hcr]
                rfl
      · exact fun k hk cs cr hcs hcr => h k (List.mem_cons_of_mem _ hk) cs cr hcs hcr

theorem convergedDirs_iff :
    ∀ (ents : Entries) (cds : List String) (er : Entries),
      convergedDirs ents cds er = true ↔
        ∀ n t, (n, t) ∈ ents → cds.contains n = true →
          ∀ er2, lookupE n er = some (FsTree.dir er2) → convergedSub t er2 = true
  | [], cds, er => by simp [convergedDirs]
  | (m, u) :: rest, cds, er => by
    rw [convergedDirs, Bool.and_eq_true, convergedDirs_iff rest cds er]
    constructor
    · rintro ⟨h1, h2⟩ n t hmem hc er2 her
      rcases List.mem_cons.mp hmem with he | hmem2
      · have hn : n = m := congrArg Prod.fst he
        have ht : t = u := congrArg Prod.snd he
        subst hn
        subst ht
        rw [if_pos hc, her] at h1
        exact h1
      · exact h2 n t hmem2 hc er2 her
    · intro h
      constructor
      · by_cases hc : cds.contains m = true
        · rw [if_pos hc]
          cases her : lookupE m er with
          | none => rfl
          | some v =>
            cases v with
            | file c => rfl
            | dir er2 => exact h m u (List.mem_cons_self _ _) hc er2 her
        · rw [if_neg hc]
      · exact fun n t hmem hc er2 her => h n t (List.mem_cons_of_mem _ hmem) hc er2 her

theorem lookupE_of_mem {m : String} {u : FsTree} :
    ∀ {es : Entries}, (namesE es).Nodup → (m, u) ∈ es → lookupE m es = some u
  | [], _, hmem => absurd hmem (List.not_mem_nil _)
  | (k, v) :: es, hnd, hmem => by
    rw [namesE_cons, List.nodup_cons] at hnd
    rw [lookupE]
    rcases List.mem_cons.mp hmem with he | hmem2
    · have hk : k = m := (congrArg Prod.fst he).symm
      subst hk
      rw [if_pos rfl]
      exact congrArg some (congrArg Prod.snd he).symm
    · by_cases hk : k = m
      · subst hk
        exact absurd (List.mem_map.mpr ⟨(k, u), hmem2, rfl⟩) hnd.1
      · rw [if_neg hk]
        exact lookupE_of_mem hnd.2 hmem2

/-! ### A converged pair is a fixed point with no actions -/

theorem updateFold_id (p : List String) (S : Entries) :
    ∀ (L : List String) (R : Entries) (acts : List Action),
      noDiffFiles S R L = true → L.foldl (updateOne p S) (R, acts) = (R, acts)
  | [], R, acts, _ => rfl
  | n :: L, R, acts, h => by
    rw [noDiffFiles, Bool.and_eq_true] at h
    rw [List.foldl_cons]
    have hstep : updateOne p S (R, acts) n = (R, acts) := by
      rw [updateOne]
      cases hcs : lookupE n S with
      | none => rfl
      | some t =>
        cases t with
        | dir es => rfl
        | file cs =>
          cases hcr : lookupE n (R, acts).1 with
          | none => rfl
          | some u =>
            cases u with
            | dir es => rfl
            | file cr =>
              have hcr2 : lookupE n R = some (FsTree.file cr) := hcr
              rw [hcs, hcr2] at h
              dsimp only at h ⊢
              have hd : files_are_different cs cr = false := by
                rcases h with ⟨h1, _⟩
                cases hdd : files_are_different cs cr
                · rfl
                · rw [hdd] at h1
                  cases h1
              rw [if_neg (by rw [hd]; simp)]
    rw [hstep]
    exact updateFold_id p S L R acts h.2

mutual
/-- A converged source directory subtree reconciles to the unchanged
replica with no actions. -/
theorem convergedSub_sound : ∀ (p : List String) (t : FsTree) (er : Entries),
    t.wfB = true → wfE er = true → convergedSub t er = true →
    ∀ es, t = FsTree.dir es → sync_folders p es (some er) = (er, [])
  | p, FsTree.file c, er, _, _, _, es, he => by cases he
  | p, FsTree.dir es0, er, hwt, hwr, hconv, es, he => by
    have hes : es0 = es := by injection he
    subst hes
    rw [convergedSub] at hconv
    rw [Bool.and_eq_true, Bool.and_eq_true, Bool.and_eq_true] at hconv
    rcases hconv with ⟨⟨⟨hl, hr⟩, hnd⟩, hcd⟩
    have hl2 : dcLeftOnly es0 er = [] := of_decide_eq_true hl
    have hr2 : dcRightOnly es0 er = [] := of_decide_eq_true hr
    rw [wfB_dir_iff] at hwt
    have hch : wfChildren es0 = true := by
      rw [wfE, Bool.and_eq_true] at hwt
      exact hwt.2
    have hsnd : (namesE es0).Nodup := wfE_nodup hwt
    rw [sync_folders]
    show syncDirs p es0 (dcCommonDirs es0 er) (phases123 p es0 er (er, [])) = (er, [])
    rw [phases123, hl2, List.foldl_nil, hr2, List.foldl_nil,
      updateFold_id p es0 (dcCommonFiles es0 er) er [] hnd]
    refine syncDirs_id p es0 (dcCommonDirs es0 er) er [] hch hwr hcd ?_ ?_
    · intro m u hmem hc
      have hmd := mem_dcCommonDirs.mp ((containsF_iff _ _).mp hc)
      rw [← lookupE_of_mem hsnd hmem]
      exact hmd.2.1
    · intro m u hmem hc
      exact (mem_dcCommonDirs.mp ((containsF_iff _ _).mp hc)).2.2

/-- The common_dirs loop of a converged pair changes nothing. -/
theorem syncDirs_id : ∀ (p : List String) (ents : Entries) (cds : List String)
      (er : Entries) (acts : List Action),
    wfChildren ents = true → wfE er = true →
    convergedDirs ents cds er = true →
    (∀ m u, (m, u) ∈ ents → cds.contains m = true → isDirO (some u) = true) →
    (∀ m u, (m, u) ∈ ents → cds.contains m = true → isDirO (lookupE m er) = true) →
    syncDirs p ents cds (er, acts) = (er, acts)
  | p, [], cds, er, acts, _, _, _, _, _ => by rw [syncDirs]
  | p, (n, t) :: rest, cds, er, acts, hch, hwr, hcd, h4, h5 => by
    rw [wfChildren, Bool.and_eq_true] at hch
    rw [convergedDirs, Bool.and_eq_true] at hcd
    rw [syncDirs]
    by_cases hc : cds.contains n = true
    · have htd : isDirO (some t) = true := h4 n t (List.mem_cons_self _ _) hc
      have hld : isDirO (lookupE n er) = true := h5 n t (List.mem_cons_self _ _) hc
      rcases isDirO_eq hld with ⟨er2, her2⟩
      cases t with
      | file c => cases htd
      | dir es2 =>
        rw [if_pos hc]
        dsimp only
        have her2b : lookupE n (er, acts).1 = some (FsTree.dir er2) := her2
        rw [her2b]
        dsimp only
        have hsub : convergedSub (FsTree.dir es2) er2 = true := by
          rcases hcd with ⟨h1, _⟩
          rw [if_pos hc, her2] at h1
          exact h1
        have hwr2 : wfE er2 = true := by
          have := wfE_lookup hwr her2
          rw [wfB_dir_iff] at this
          exact this
        have hsync : sync_folders (p ++ [n]) es2 (some er2) = (er2, []) :=
          convergedSub_sound (p ++ [n]) (FsTree.dir es2) er2 hch.1 hwr2 hsub es2 rfl
        rw [syncSub_dir, hsync]
        dsimp only
        rw [insertEntry_self (wfE_sorted hwr) her2, List.append_nil]
        exact syncDirs_id p rest cds er acts hch.2 hwr hcd.2
          (fun m u hm hcm => h4 m u (List.mem_cons_of_mem _ hm) hcm)
          (fun m u hm hcm => h5 m u (List.mem_cons_of_mem _ hm) hcm)
    · rw [if_neg hc]
      exact syncDirs_id p rest cds er acts hch.2 hwr hcd.2
        (fun m u hm hcm => h4 m u (List.mem_cons_of_mem _ hm) hcm)
        (fun m u hm hcm => h5 m u (List.mem_cons_of_mem _ hm) hcm)
end

/-- sync_folders on a converged pair returns the replica unchanged and
logs nothing. -/
theorem converged_sound (p : List String) (S R : Entries)
    (hS : wfE S = true) (hR : wfE R = true) (hconv : convergedB S R = true) :
    sync_folders p S (some R) = (R, []) :=
  convergedSub_sound p (FsTree.dir S) R ((wfB_dir_iff S).mpr hS) hR hconv S rfl

mutual
/-- A well-formed directory pair of identical trees is converged. -/
theorem convergedSub_refl : ∀ (t : FsTree), t.wfB = true →
    ∀ es, t = FsTree.dir es → convergedB es es = true
  | FsTree.file c, _, es, he => by cases he
  | FsTree.dir es0, hwt, es, he => by
    have hes : es0 = es := by injection he
    subst hes
    rw [wfB_dir_iff] at hwt
    have hsnd : (namesE es0).Nodup := wfE_nodup hwt
    have hch : wfChildren es0 = true := by
      rw [wfE, Bool.and_eq_true] at hwt
      exact hwt.2
    rw [convergedB_eq, Bool.and_eq_true, Bool.and_eq_true, Bool.and_eq_true]
    refine ⟨⟨⟨?_, ?_⟩, ?_⟩, ?_⟩
    · refine decide_eq_true ?_
      rw [List.eq_nil_iff_forall_not_mem]
      intro n hn
      exact (mem_dcLeftOnly.mp hn).2.2 (mem_dcLeftOnly.mp hn).2.1
    · refine decide_eq_true ?_
      rw [List.eq_nil_iff_forall_not_mem]
      intro n hn
      exact (mem_dcRightOnly.mp hn).2.2 (mem_dcRightOnly.mp hn).2.1
    · rw [noDiffFiles_iff]
      intro n _ cs cr hcs hcr
      rw [hcs] at hcr
      injection hcr with hcr
      injection hcr with hcr
      rw [hcr]
      exact files_are_different_self cr
    · rw [convergedDirs_iff]
      intro n t2 hmem _ er2 her2
      rw [lookupE_of_mem hsnd hmem] at her2
      injection her2 with her2
      subst her2
      exact reflRec es0 hch n er2 hmem

/-- Helper: reflexive convergence for every directory entry of a
well-formed listing. -/
theorem reflRec : ∀ (ents : Entries), wfChildren ents = true →
    ∀ (n : String) (es2 : Entries), (n, FsTree.dir es2) ∈ ents →
      convergedB es2 es2 = true
  | [], _, n, es2, hmem => absurd hmem (List.not_mem_nil _)
  | (m, u) :: rest, hch, n, es2, hmem => by
    rw [wfChildren, Bool.and_eq_true] at hch
    rcases List.mem_cons.mp hmem with he | hmem2
    · have hu : u = FsTree.dir es2 := (congrArg Prod.snd he).symm
      exact convergedSub_refl u hch.1 es2 hu
    · exact reflRec rest hch.2 n es2 hmem2
end

mutual
/-- After one sync_folders call the pair is converged: the next
comparison finds empty left_only and right_only sets, no differing
common file, and recursively converged common subdirectories. -/
theorem syncSub_converged : ∀ (p : List String) (t : FsTree) (R : Entries),
    t.wfB = true → wfE R = true →
    ∀ es, t = FsTree.dir es → convergedB es (sync_folders p es (some R)).1 = true
  | p, FsTree.file c, R, _, _, es, he => by cases he
  | p, FsTree.dir es0, R, hwt0, hR, es, he => by
    have hes : es0 = es := by injection he
    subst hes
    rw [wfB_dir_iff] at hwt0
    have hch : wfChildren es0 = true := by
      rw [wfE, Bool.and_eq_true] at hwt0
      exact hwt0.2
    have hsnd : (namesE es0).Nodup := wfE_nodup hwt0
    rw [convergedB_eq, Bool.and_eq_true, Bool.and_eq_true, Bool.and_eq_true]
    refine ⟨⟨⟨?_, ?_⟩, ?_⟩, ?_⟩
    · -- left_only of the second comparison is empty
      refine decide_eq_true ?_
      rw [List.eq_nil_iff_forall_not_mem]
      intro n hn
      rcases mem_dcLeftOnly.mp hn with ⟨hv, hinS, hnotR2⟩
      apply hnotR2
      rw [← lookupE_isSome_iff, sync_lookup p es0 R n hwt0 hR]
      by_cases h1 : n ∈ dcLeftOnly es0 R
      · rw [if_pos h1]
        exact (lookupE_isSome_iff n es0).mpr hinS
      · rw [if_neg h1]
        by_cases h2 : n ∈ dcRightOnly es0 R
        · exact absurd (mem_dcRightOnly.mp h2).2.2 (fun hf => hf hinS)
        · rw [if_neg h2]
          by_cases h3 : n ∈ dcCommonFiles es0 R
          · rw [if_pos h3]
            rcases isFileO_eq (mem_dcCommonFiles.mp h3).2.1 with ⟨cs, hcs⟩
            rcases isFileO_eq (mem_dcCommonFiles.mp h3).2.2 with ⟨cr, hcr⟩
            rw [hcs, hcr]
            rfl
          · rw [if_neg h3]
            by_cases h4 : n ∈ dcCommonDirs es0 R
            · rw [if_pos h4]
              rcases isDirO_eq (mem_dcCommonDirs.mp h4).2.1 with ⟨es2, hes2⟩
              rcases isDirO_eq (mem_dcCommonDirs.mp h4).2.2 with ⟨er2, her2⟩
              rw [hes2, her2]
              rfl
            · rw [if_neg h4]
              have hinR : n ∈ namesE R := by
                by_contra hnotR
                exact h1 (mem_dcLeftOnly.mpr ⟨hv, hinS, hnotR⟩)
              exact (lookupE_isSome_iff n R).mpr hinR
    · -- right_only of the second comparison is empty
      refine decide_eq_true ?_
      rw [List.eq_nil_iff_forall_not_mem]
      intro n hn
      rcases mem_dcRightOnly.mp hn with ⟨hv, hinR2, hnotS⟩
      have hsome : (lookupE n (sync_folders p es0 (some R)).1).isSome = true :=
        (lookupE_isSome_iff _ _).mpr hinR2
      rw [sync_lookup p es0 R n hwt0 hR] at hsome
      by_cases h1 : n ∈ dcLeftOnly es0 R
      · exact hnotS (mem_dcLeftOnly.mp h1).2.1
      · rw [if_neg h1] at hsome
        by_cases h2 : n ∈ dcRightOnly es0 R
        · rw [if_pos h2] at hsome
          cases hsome
        · rw [if_neg h2] at hsome
          by_cases h3 : n ∈ dcCommonFiles es0 R
          · exact hnotS (mem_dcCommon.mp (mem_dcCommonFiles.mp h3).1).2.1
          · rw [if_neg h3] at hsome
            by_cases h4 : n ∈ dcCommonDirs es0 R
            · exact hnotS (mem_dcCommon.mp (mem_dcCommonDirs.mp h4).1).2.1
            · rw [if_neg h4] at hsome
              have hinR : n ∈ namesE R := (lookupE_isSome_iff n R).mp hsome
              exact h2 (mem_dcRightOnly.mpr ⟨hv, hinR, hnotS⟩)
    · -- no common file of the second comparison differs
      rw [noDiffFiles_iff]
      intro n hnL cs cr hcs hcr
      rw [sync_lookup p es0 R n hwt0 hR] at hcr
      by_cases h1 : n ∈ dcLeftOnly es0 R
      · rw [if_pos h1] at hcr
        rw [hcs] at hcr
        injection hcr with hcr
        injection hcr with hcr
        rw [hcr]
        exact files_are_different_self cr
      · rw [if_neg h1] at hcr
        by_cases h2 : n ∈ dcRightOnly es0 R
        · rw [if_pos h2] at hcr
          cases hcr
        · rw [if_neg h2] at hcr
          by_cases h3 : n ∈ dcCommonFiles es0 R
          · rw [if_pos h3] at hcr
            rcases isFileO_eq (mem_dcCommonFiles.mp h3).2.2 with ⟨cr0, hcr0⟩
            rw [hcs, hcr0] at hcr
            dsimp only at hcr
            by_cases hdd : files_are_different cs cr0 = true
            · rw [if_pos hdd] at hcr
              injection hcr with hcr
              injection hcr with hcr
              rw [← hcr]
              exact files_are_different_self cs
            · rw [if_neg hdd] at hcr
              injection hcr with hcr
              injection hcr with hcr
              rw [← hcr]
              exact Bool.eq_false_iff.mpr hdd
          · rw [if_neg h3] at hcr
            by_cases h4 : n ∈ dcCommonDirs es0 R
            · rw [if_pos h4] at hcr
              rcases isDirO_eq (mem_dcCommonDirs.mp h4).2.1 with ⟨es2, hes2⟩
              rw [hes2] at hcs
              cases hcs
            · rw [if_neg h4] at hcr
              have hinR : n ∈ namesE R := by
                rw [← lookupE_isSome_iff, hcr]
                rfl
              have hinS : n ∈ namesE es0 := by
                rw [← lookupE_isSome_iff, hcs]
                rfl
              have hv : visibleName n = true :=
                (mem_dcCommon.mp (mem_dcCommonFiles.mp hnL).1).1
              refine absurd (mem_dcCommonFiles.mpr ⟨mem_dcCommon.mpr ⟨hv, hinS, hinR⟩,
                ?_, ?_⟩) h3
              · rw [hcs]
                rfl
              · rw [hcr]
                rfl
    · -- common subdirectories of the second comparison are converged
      rw [convergedDirs_iff]
      intro n t2 hmem hc er2 her2
      have hlookS : lookupE n es0 = some t2 := lookupE_of_mem hsnd hmem
      have hmem2 := mem_dcCommonDirs.mp ((containsF_iff _ _).mp hc)
      have htd : isDirO (some t2) = true := by
        rw [← hlookS]
        exact hmem2.2.1
      cases t2 with
      | file c => cases htd
      | dir es2 =>
      rw [sync_lookup p es0 R n hwt0 hR] at her2
      by_cases h1 : n ∈ dcLeftOnly es0 R
      · rw [if_pos h1, hlookS] at her2
        injection her2 with her2
        injection her2 with her2
        subst her2
        exact reflRec es0 hch n es2 hmem
      · rw [if_neg h1] at her2
        by_cases h2 : n ∈ dcRightOnly es0 R
        · rw [if_pos h2] at her2
          cases her2
        · rw [if_neg h2] at her2
          by_cases h3 : n ∈ dcCommonFiles es0 R
          · rcases isFileO_eq (mem_dcCommonFiles.mp h3).2.1 with ⟨cs, hcs⟩
            rw [hcs] at hlookS
            cases hlookS
          · rw [if_neg h3] at her2
            by_cases h4 : n ∈ dcCommonDirs es0 R
            · rw [if_pos h4, hlookS] at her2
              rcases isDirO_eq (mem_dcCommonDirs.mp h4).2.2 with ⟨er0, her0⟩
              rw [her0] at her2
              dsimp only at her2
              injection her2 with her2
              injection her2 with her2
              subst her2
              have hwr0 : wfE er0 = true := by
                have hb := wfE_lookup hR her0
                rw [wfB_dir_iff] at hb
                exact hb
              exact convRec es0 hch (p ++ [n]) n es2 er0 hmem hwr0
            · rw [if_neg h4] at her2
              have hinR : n ∈ namesE R := by
                rw [← lookupE_isSome_iff, her2]
                rfl
              have hinS : n ∈ namesE es0 := by
                rw [← lookupE_isSome_iff, hlookS]
                rfl
              have hv : visibleName n = true :=
                (mem_dcCommon.mp hmem2.1).1
              refine absurd (mem_dcCommonDirs.mpr ⟨mem_dcCommon.mpr ⟨hv, hinS, hinR⟩,
                ?_, ?_⟩) h4
              · rw [hlookS]
                rfl
              · rw [her2]
                rfl

/-- Helper: the convergence-after-sync property for every directory
entry of a well-formed listing. -/
theorem convRec : ∀ (ents : Entries), wfChildren ents = true →
    ∀ (q : List String) (n : String) (es2 R2 : Entries),
      (n, FsTree.dir es2) ∈ ents → wfE R2 = true →
      convergedB es2 (sync_folders q es2 (some R2)).1 = true
  | [], _, _, n, es2, _, hmem, _ => absurd hmem (List.not_mem_nil _)
  | (m, u) :: rest, hch, q, n, es2, R2, hmem, hwr => by
    rw [wfChildren, Bool.and_eq_true] at hch
    rcases List.mem_cons.mp hmem with he | hmem2
    · have hu : u = FsTree.dir es2 := (congrArg Prod.snd he).symm
      exact syncSub_converged q u R2 hch.1 hwr es2 hu
    · exact convRec rest hch.2 q n es2 R2 hmem2 hwr
end

/-- After one sync_folders call on a well-formed pair, the pair is
converged. -/
theorem sync_converged (p : List String) (S R : Entries)
    (hS : wfE S = true) (hR : wfE R = true) :
    convergedB S (sync_folders p S (some R)).1 = true :=
  syncSub_converged p (FsTree.dir S) R ((wfB_dir_iff S).mpr hS) hR S rfl

/-! ### Action trace lemmas -/

/-- Creation-kind actions: a created directory, a copied file, a copied
directory tree. -/
def isCreateA : Action → Bool
  | .createdDir _ => true
  | .copiedFile _ => true
  | .copiedDir _ => true
  | _ => false

/-- Deletion-kind actions. -/
def isRemoveA : Action → Bool
  | .removedFile _ => true
  | .removedDir _ => true
  | _ => false

/-- Update-kind actions. -/
def isUpdateA : Action → Bool
  | .updatedFile _ => true
  | _ => false

/-- Whether a tree node is a directory. -/
def isDirT : FsTree → Bool
  | .dir _ => true
  | .file _ => false

/-- Trace of one common_files step, kind only. -/
theorem updateOne_trace_kind (p : List String) (S : Entries)
    (st : Entries × List Action) (m : String) :
    ∃ new, (updateOne p S st m).2 = st.2 ++ new ∧
      ∀ a ∈ new, a = Action.updatedFile (p ++ [m]) := by
  rw [updateOne]
  cases lookupE m S with
  | none => exact ⟨[], by simp⟩
  | some t =>
    cases t with
    | dir es => exact ⟨[], by simp⟩
    | file cs =>
      cases lookupE m st.1 with
      | none => exact ⟨[], by simp⟩
      | some u =>
        cases u with
        | dir es => exact ⟨[], by simp⟩
        | file cr =>
          dsimp only
          by_cases hd : files_are_different cs cr = true
          · rw [if_pos hd]
            exact ⟨[Action.updatedFile (p ++ [m])], rfl, by simp⟩
          · rw [if_neg hd]
            exact ⟨[], by simp⟩

/-- Every action of the three loops is either inherited from the initial
state or targets an immediate child of the pair. -/
theorem phases123_actions (p : List String) (S R : Entries) (st : Entries × List Action) :
    ∀ a ∈ (phases123 p S R st).2, a ∈ st.2 ∨ ∃ k, a.path = p ++ [k] := by
  rw [phases123]
  have hP : ∀ (F : Entries × List Action → String → Entries × List Action),
      (∀ st2 m, ∃ new, (F st2 m).2 = st2.2 ++ new ∧
        ∀ a ∈ new, ∃ k, a.path = p ++ [k]) →
      ∀ (L : List String) (st2 : Entries × List Action),
        (∀ a ∈ st2.2, a ∈ st.2 ∨ ∃ k, a.path = p ++ [k]) →
        ∀ a ∈ (L.foldl F st2).2, a ∈ st.2 ∨ ∃ k, a.path = p ++ [k] := by
    intro F hF L st2 hst2 a ha
    rcases foldl_trace (fun a => ∃ k, a.path = p ++ [k]) L st2
      (fun st3 m _ => hF st3 m) with ⟨new, hnew, hp⟩
    rw [hnew] at ha
    rcases List.mem_append.mp ha with ha | ha
    · exact hst2 a ha
    · exact Or.inr (hp a ha)
  apply hP
  · intro st2 m
    rcases updateOne_trace_kind p S st2 m with ⟨new, hnew, hk⟩
    exact ⟨new, hnew, fun a ha => ⟨m, by rw [hk a ha, Action.path]⟩⟩
  · apply hP
    · intro st2 m
      rcases removeOne_trace p st2 m with ⟨new, hnew, hk⟩
      refine ⟨new, hnew, fun a ha => ⟨m, ?_⟩⟩
      rcases hk a ha with h | h <;> rw [h, Action.path]
    · apply hP
      · intro st2 m
        rcases copyOne_trace p S st2 m with ⟨new, hnew, hk⟩
        refine ⟨new, hnew, fun a ha => ⟨m, ?_⟩⟩
        rcases hk a ha with h | h <;> rw [h, Action.path]
      · exact fun a ha => Or.inl ha

mutual
/-- Every action logged while reconciling a pair at replica path q
targets a path extending q: all writes stay inside the replica subtree. -/
theorem syncSub_path_prefix : ∀ (q : List String) (t : FsTree) (rep : Option Entries),
    ∀ a ∈ (syncSub q t rep).2, a.path.take q.length = q
  | q, FsTree.file c, rep, a, ha => absurd ha (List.not_mem_nil _)
  | q, FsTree.dir es, rep, a, ha => by
    rw [syncSub_dir] at ha
    dsimp only at ha
    rw [sync_folders] at ha
    refine syncDirs_path_prefix q es (dcCommonDirs es (rep.getD []))
      (phases123 q es (rep.getD []) (rep.getD [], mkdirActions q rep)) ?_ a ha
    intro b hb
    rcases phases123_actions q es (rep.getD []) (rep.getD [], mkdirActions q rep) b hb with
      hb2 | ⟨k, hk⟩
    · cases rep with
      | some R => exact absurd (show b ∈ ([] : List Action) from hb2) (List.not_mem_nil _)
      | none =>
        have hb3 : b ∈ [Action.createdDir q] := hb2
        rw [List.mem_singleton] at hb3
        rw [hb3, Action.path, List.take_length]
    · rw [hk]
      exact List.take_left q [k]

theorem syncDirs_path_prefix : ∀ (q : List String) (ents : Entries) (cds : List String)
      (st : Entries × List Action),
    (∀ a ∈ st.2, a.path.take q.length = q) →
    ∀ a ∈ (syncDirs q ents cds st).2, a.path.take q.length = q
  | q, [], cds, st, hst, a, ha => by
    rw [syncDirs] at ha
    exact hst a ha
  | q, (n, t) :: rest, cds, st, hst, a, ha => by
    rw [syncDirs] at ha
    by_cases hc : cds.contains n = true
    · rw [if_pos hc] at ha
      dsimp only at ha
      have hsub : ∀ (rep : Option Entries) (b : Action), b ∈ (syncSub (q ++ [n]) t rep).2 →
          b.path.take q.length = q := by
        intro rep b hb
        have h1 := syncSub_path_prefix (q ++ [n]) t rep b hb
        have h2 : b.path.take q.length = (b.path.take (q ++ [n]).length).take q.length := by
          rw [List.take_take]
          have : min q.length (q ++ [n]).length = q.length := by
            simp [List.length_append]
          rw [this]
        rw [h2, h1]
        exact List.take_left q [n]
      revert ha
      cases lookupE n st.1 with
      | none =>
        intro ha
        refine syncDirs_path_prefix q rest cds _ ?_ a ha
        intro b hb
        rcases List.mem_append.mp hb with hb | hb
        · exact hst b hb
        · exact hsub none b hb
      | some er =>
        cases er with
        | file c =>
          intro ha
          exact syncDirs_path_prefix q rest cds st hst a ha
        | dir er =>
          intro ha
          refine syncDirs_path_prefix q rest cds _ ?_ a ha
          intro b hb
          rcases List.mem_append.mp hb with hb | hb
          · exact hst b hb
          · exact hsub (some er) b hb
    · rw [if_neg hc] at ha
      exact syncDirs_path_prefix q rest cds st hst a ha
end

/-- All filesystem writes of one sync_folders call target the replica
subtree: every logged action path extends the replica-relative path of
the pair. -/
theorem sync_folders_path_prefix (q : List String) (S : Entries) (rep : Option Entries) :
    ∀ a ∈ (sync_folders q S rep).2, a.path.take q.length = q := by
  intro a ha
  refine syncSub_path_prefix q (FsTree.dir S) rep a ?_
  rw [syncSub_dir]
  exact ha

mutual
/-- Lower bound on the depth of logged action paths: reconciling a pair
at path q only logs actions at q itself (the mkdir when the replica was
missing) or strictly below; against an existing replica every action is
strictly below q. -/
theorem syncSub_path_len : ∀ (q : List String) (t : FsTree) (rep : Option Entries),
    ∀ a ∈ (syncSub q t rep).2,
      q.length + (match rep with | some _ => 1 | none => 0) ≤ a.path.length
  | q, FsTree.file c, rep, a, ha => absurd ha (List.not_mem_nil _)
  | q, FsTree.dir es, rep, a, ha => by
    rw [syncSub_dir] at ha
    dsimp only at ha
    rw [sync_folders] at ha
    have hble : (match rep with | some _ => 1 | none => (0 : Nat)) ≤ 1 := by
      cases rep <;> simp
    refine syncDirs_path_len q es (dcCommonDirs es (rep.getD []))
      (phases123 q es (rep.getD []) (rep.getD [], mkdirActions q rep)) hble ?_ a ha
    intro b hb
    rcases phases123_actions q es (rep.getD []) (rep.getD [], mkdirActions q rep) b hb with
      hb2 | ⟨k, hk⟩
    · cases rep with
      | some R => exact absurd (show b ∈ ([] : List Action) from hb2) (List.not_mem_nil _)
      | none =>
        have hb3 : b ∈ [Action.createdDir q] := hb2
        rw [List.mem_singleton] at hb3
        rw [hb3, Action.path]
        simp
    · rw [hk, List.length_append]
      cases rep <;> simp

theorem syncDirs_path_len : ∀ (q : List String) (ents : Entries) (cds : List String)
      (st : Entries × List Action) {b : Nat},
    b ≤ 1 →
    (∀ a ∈ st.2, q.length + b ≤ a.path.length) →
    ∀ a ∈ (syncDirs q ents cds st).2, q.length + b ≤ a.path.length
  | q, [], cds, st, b, _, hst, a, ha => by
    rw [syncDirs] at ha
    exact hst a ha
  | q, (n, t) :: rest, cds, st, b, hble, hst, a, ha => by
    rw [syncDirs] at ha
    by_cases hc : cds.contains n = true
    · rw [if_pos hc] at ha
      dsimp only at ha
      have hsub : ∀ (rep : Option Entries) (c : Action), c ∈ (syncSub (q ++ [n]) t rep).2 →
          q.length + b ≤ c.path.length := by
        intro rep c hcmem
        have h1 := syncSub_path_len (q ++ [n]) t rep c hcmem
        rw [List.length_append] at h1
        have h2 : (0 : Nat) ≤ (match rep with | some _ => 1 | none => 0) := by
          cases rep <;> simp
        simp only [List.length_singleton] at h1
        omega
      revert ha
      cases lookupE n st.1 with
      | none =>
        intro ha
        refine syncDirs_path_len q rest cds _ hble ?_ a ha
        intro c hcm
        rcases List.mem_append.mp hcm with hcm | hcm
        · exact hst c hcm
        · exact hsub none c hcm
      | some er =>
        cases er with
        | file cnt =>
          intro ha
          exact syncDirs_path_len q rest cds st hble hst a ha
        | dir er =>
          intro ha
          refine syncDirs_path_len q rest cds _ hble ?_ a ha
          intro c hcm
          rcases List.mem_append.mp hcm with hcm | hcm
          · exact hst c hcm
          · exact hsub (some er) c hcm
    · rw [if_neg hc] at ha
      exact syncDirs_path_len q rest cds st hble hst a ha
end

/-- Against an existing replica directory, every logged action lies
strictly below the pair. -/
theorem sync_some_path_len (q : List String) (S R : Entries) :
    ∀ a ∈ (sync_folders q S (some R)).2, q.length + 1 ≤ a.path.length := by
  intro a ha
  have h1 := syncSub_path_len q (FsTree.dir S) (some R) a (by rw [syncSub_dir]; exact ha)
  simpa using h1

/-- Every action appended by the common_dirs loop targets a path below
one of the loop names. -/
theorem syncDirs_trace_head : ∀ (q : List String) (ents : Entries) (cds : List String)
      (st : Entries × List Action),
    ∃ new, (syncDirs q ents cds st).2 = st.2 ++ new ∧
      ∀ a ∈ new, ∃ k, cds.contains k = true ∧ a.path.take (q.length + 1) = q ++ [k]
  | q, [], cds, st => ⟨[], by rw [syncDirs]; simp⟩
  | q, (n, t) :: rest, cds, st => by
    rw [syncDirs]
    by_cases hc : cds.contains n = true
    · rw [if_pos hc]
      dsimp only
      have hsubp : ∀ (rep : Option Entries) (c : Action), c ∈ (syncSub (q ++ [n]) t rep).2 →
          c.path.take (q.length + 1) = q ++ [n] := by
        intro rep c hcmem
        have h1 := syncSub_path_prefix (q ++ [n]) t rep c hcmem
        rw [List.length_append, List.length_singleton] at h1
        exact h1
      cases lookupE n st.1 with
      | none =>
        rcases syncDirs_trace_head q rest cds
          (insertEntry n (syncSub (q ++ [n]) t none).1 st.1,
            st.2 ++ (syncSub (q ++ [n]) t none).2) with ⟨new2, hnew2, hp2⟩
        refine ⟨(syncSub (q ++ [n]) t none).2 ++ new2, ?_, ?_⟩
        · rw [hnew2]
          dsimp only
          rw [List.append_assoc]
        · intro a ha
          rcases List.mem_append.mp ha with ha | ha
          · exact ⟨n, hc, hsubp none a ha⟩
          · exact hp2 a ha
      | some er =>
        cases er with
        | file c =>
          exact syncDirs_trace_head q rest cds st
        | dir er =>
          rcases syncDirs_trace_head q rest cds
            (insertEntry n (syncSub (q ++ [n]) t (some er)).1 st.1,
              st.2 ++ (syncSub (q ++ [n]) t (some er)).2) with ⟨new2, hnew2, hp2⟩
          refine ⟨(syncSub (q ++ [n]) t (some er)).2 ++ new2, ?_, ?_⟩
          · rw [hnew2]
            dsimp only
            rw [List.append_assoc]
          · intro a ha
            rcases List.mem_append.mp ha with ha | ha
            · exact ⟨n, hc, hsubp (some er) a ha⟩
            · exact hp2 a ha
    · rw [if_neg hc]
      exact syncDirs_trace_head q rest cds st

/-- The ordered trace of the three loops. -/
theorem phases123_trace (p : List String) (S R : Entries) (st : Entries × List Action) :
    ∃ A B C, (phases123 p S R st).2 = st.2 ++ A ++ B ++ C ∧
      (∀ a ∈ A, ∃ k, k ∈ dcLeftOnly S R ∧
        (a = Action.copiedDir (p ++ [k]) ∨ a = Action.copiedFile (p ++ [k]))) ∧
      (∀ a ∈ B, ∃ k, k ∈ dcRightOnly S R ∧
        (a = Action.removedDir (p ++ [k]) ∨ a = Action.removedFile (p ++ [k]))) ∧
      (∀ a ∈ C, ∃ k, k ∈ dcCommonFiles S R ∧ a = Action.updatedFile (p ++ [k])) := by
  rw [phases123]
  rcases foldl_trace (fun a => ∃ k, k ∈ dcLeftOnly S R ∧
      (a = Action.copiedDir (p ++ [k]) ∨ a = Action.copiedFile (p ++ [k])))
    (dcLeftOnly S R) st (fun st2 m hm => by
      rcases copyOne_trace p S st2 m with ⟨new, hnew, hp⟩
      exact ⟨new, hnew, fun a ha => ⟨m, hm, hp a ha⟩⟩) with ⟨A, hA, hpA⟩
  rcases foldl_trace (fun a => ∃ k, k ∈ dcRightOnly S R ∧
      (a = Action.removedDir (p ++ [k]) ∨ a = Action.removedFile (p ++ [k])))
    (dcRightOnly S R) ((dcLeftOnly S R).foldl (copyOne p S) st) (fun st2 m hm => by
      rcases removeOne_trace p st2 m with ⟨new, hnew, hp⟩
      exact ⟨new, hnew, fun a ha => ⟨m, hm, hp a ha⟩⟩) with ⟨B, hB, hpB⟩
  rcases foldl_trace (fun a => ∃ k, k ∈ dcCommonFiles S R ∧ a = Action.updatedFile (p ++ [k]))
    (dcCommonFiles S R)
    ((dcRightOnly S R).foldl (removeOne p) ((dcLeftOnly S R).foldl (copyOne p S) st))
    (fun st2 m hm => by
      rcases updateOne_trace_kind p S st2 m with ⟨new, hnew, hp⟩
      exact ⟨new, hnew, fun a ha => ⟨m, hm, hp a ha⟩⟩) with ⟨C, hC, hpC⟩
  refine ⟨A, B, C, ?_, hpA, hpB, hpC⟩
  rw [hC, hB, hA]

/-- Head names of every action of one sync_folders call on an existing
replica: each targets a path below one of the four partition lists. -/
theorem sync_action_head (q : List String) (S R : Entries) :
    ∀ a ∈ (sync_folders q S (some R)).2,
      ∃ k, (k ∈ dcLeftOnly S R ∨ k ∈ dcRightOnly S R ∨ k ∈ dcCommonFiles S R ∨
        k ∈ dcCommonDirs S R) ∧ a.path.take (q.length + 1) = q ++ [k] := by
  intro a ha
  have ha2 : a ∈ (syncDirs q S (dcCommonDirs S R) (phases123 q S R (R, []))).2 := ha
  rcases syncDirs_trace_head q S (dcCommonDirs S R) (phases123 q S R (R, []))
    with ⟨new, hnew, hp⟩
  rw [hnew] at ha2
  have hfull : ∀ (k : String), ((q ++ [k]).take (q.length + 1)) = q ++ [k] := by
    intro k
    have hlen : (q ++ [k]).length = q.length + 1 := by simp
    rw [← hlen, List.take_length]
  rcases List.mem_append.mp ha2 with ha3 | ha3
  · rcases phases123_trace q S R (R, []) with ⟨A, B, C, hABC, hpA, hpB, hpC⟩
    rw [hABC, List.nil_append] at ha3
    rcases List.mem_append.mp ha3 with ha4 | ha4
    · rcases List.mem_append.mp ha4 with ha5 | ha5
      · rcases hpA a ha5 with ⟨k, hk, hak⟩
        refine ⟨k, Or.inl hk, ?_⟩
        rcases hak with hak | hak <;> (rw [hak, Action.path]; exact hfull k)
      · rcases hpB a ha5 with ⟨k, hk, hak⟩
        refine ⟨k, Or.inr (Or.inl hk), ?_⟩
        rcases hak with hak | hak <;> (rw [hak, Action.path]; exact hfull k)
    · rcases hpC a ha4 with ⟨k, hk, hak⟩
      refine ⟨k, Or.inr (Or.inr (Or.inl hk)), ?_⟩
      rw [hak, Action.path]
      exact hfull k
  · rcases hp a ha3 with ⟨k, hk, hak⟩
    exact ⟨k, Or.inr (Or.inr (Or.inr ((containsF_iff _ _).mp hk))), hak⟩

/-- When every loop name is an existing replica directory, the
common_dirs loop only appends actions at least two levels below the
pair. -/
theorem syncDirs_trace_deep : ∀ (q : List String) (ents : Entries) (cds : List String)
      (st : Entries × List Action),
    (namesE ents).Nodup →
    (∀ k, k ∈ namesE ents → cds.contains k = true → isDirO (lookupE k st.1) = true) →
    ∃ new, (syncDirs q ents cds st).2 = st.2 ++ new ∧
      ∀ a ∈ new, q.length + 2 ≤ a.path.length
  | q, [], cds, st, _, _ => ⟨[], by rw [syncDirs]; simp⟩
  | q, (n, t) :: rest, cds, st, hnd, hdir => by
    rw [namesE_cons, List.nodup_cons] at hnd
    rw [syncDirs]
    by_cases hc : cds.contains n = true
    · have hd := hdir n (by rw [namesE_cons]; exact List.mem_cons_self _ _) hc
      rcases isDirO_eq hd with ⟨er, her⟩
      rw [if_pos hc]
      dsimp only
      rw [her]
      dsimp only
      have hdir2 : ∀ k, k ∈ namesE rest → cds.contains k = true →
          isDirO (lookupE k (insertEntry n (syncSub (q ++ [n]) t (some er)).1 st.1,
            st.2 ++ (syncSub (q ++ [n]) t (some er)).2).1) = true := by
        intro k hk hck
        dsimp only
        have hkn : ¬ k = n := fun he => hnd.1 (he ▸ hk)
        rw [lookupE_insert, if_neg hkn]
        exact hdir k (by rw [namesE_cons]; exact List.mem_cons_of_mem _ hk) hck
      rcases syncDirs_trace_deep q rest cds _ hnd.2 hdir2 with ⟨new2, hnew2, hp2⟩
      refine ⟨(syncSub (q ++ [n]) t (some er)).2 ++ new2, ?_, ?_⟩
      · rw [hnew2]
        dsimp only
        rw [List.append_assoc]
      · intro a ha
        rcases List.mem_append.mp ha with ha | ha
        · have h1 := syncSub_path_len (q ++ [n]) t (some er) a ha
          rw [List.length_append, List.length_singleton] at h1
          have h2 : q.length + 1 + 1 ≤ a.path.length := h1
          omega
        · exact hp2 a ha
    · rw [if_neg hc]
      exact syncDirs_trace_deep q rest cds st hnd.2
        (fun k hk hck => hdir k (by rw [namesE_cons]; exact List.mem_cons_of_mem _ hk) hck)

/-! ### Frame helpers for the phase states -/

theorem phases12_lookup_frame (p : List String) (S R : Entries) (mk : List Action)
    (k : String) (hR : sortedNames R = true)
    (h1 : k ∉ dcLeftOnly S R) (h2 : k ∉ dcRightOnly S R) :
    lookupE k ((dcRightOnly S R).foldl (removeOne p)
      ((dcLeftOnly S R).foldl (copyOne p S) (R, mk))).1 = lookupE k R := by
  have hsorted1 : sortedNames ((dcLeftOnly S R).foldl (copyOne p S) (R, mk)).1 = true :=
    foldl_pred _ (fun st2 => sortedNames st2.1 = true) _ _ hR
      (fun st2 m h2b => copyOne_sorted p S st2 m h2b)
  rw [foldl_obs_frame (removeOne p) (fun st2 => lookupE k st2.1)
    (fun st2 => sortedNames st2.1 = true) _ _ hsorted1
    (fun st2 m h3 => removeOne_sorted p st2 m h3)
    (fun st2 m _ hm => removeOne_lookup_other p st2 (fun he => absurd (he ▸ hm) h2))]
  exact foldl_obs_frame (copyOne p S) (fun st2 => lookupE k st2.1)
    (fun st2 => sortedNames st2.1 = true) _ _ hR
    (fun st2 m h3 => copyOne_sorted p S st2 m h3)
    (fun st2 m _ hm => copyOne_lookup_other p S st2 (fun he => absurd (he ▸ hm) h1))

/-! ### Claim theorems, part one -/

/-- C4: reconcile is idempotent.  Running sync_folders twice in a row
with no intervening source change performs zero create, delete, or
update actions on the second run: the second comparison finds an empty
left_only set, an empty right_only set, and no differing common file,
and the second call logs no action at all. -/
theorem reconcile_idempotent (p : List String) (S R : Entries)
    (hS : wfE S = true) (hR : wfE R = true) :
    (sync_folders p S (some (sync_folders p S (some R)).1)).2 = [] ∧
    dcLeftOnly S (sync_folders p S (some R)).1 = [] ∧
    dcRightOnly S (sync_folders p S (some R)).1 = [] ∧
    noDiffFiles S (sync_folders p S (some R)).1
      (dcCommonFiles S (sync_folders p S (some R)).1) = true := by
  have hwR2 : wfE (sync_folders p S (some R)).1 = true := sync_folders_wf p S (some R) hS hR
  have hconv := sync_converged p S R hS hR
  have hs := converged_sound p S (sync_folders p S (some R)).1 hS hwR2 hconv
  rw [convergedB_eq, Bool.and_eq_true, Bool.and_eq_true, Bool.and_eq_true] at hconv
  exact ⟨by rw [hs], of_decide_eq_true hconv.1.1.1, of_decide_eq_true hconv.1.1.2,
    hconv.1.2⟩

/-- Witness for C4 at a concrete pair. -/
theorem reconcile_idempotent_witness :
    (sync_folders [] [("a", FsTree.file [1])]
      (some (sync_folders [] [("a", FsTree.file [1])] (some [])).1)).2 = [] ∧
    dcLeftOnly [("a", FsTree.file [1])]
      (sync_folders [] [("a", FsTree.file [1])] (some [])).1 = [] ∧
    dcRightOnly [("a", FsTree.file [1])]
      (sync_folders [] [("a", FsTree.file [1])] (some [])).1 = [] ∧
    noDiffFiles [("a", FsTree.file [1])] (sync_folders [] [("a", FsTree.file [1])] (some [])).1
      (dcCommonFiles [("a", FsTree.file [1])]
        (sync_folders [] [("a", FsTree.file [1])] (some [])).1) = true :=
  reconcile_idempotent [] [("a", FsTree.file [1])] [] (by decide) (by decide)

/-- C8: when the replica directory does not exist, sync_folders creates
it first (the created-directory action heads the log) and then proceeds
exactly as against an existing empty replica directory, so the
comparison always runs against an existing replica directory. -/
theorem replica_created_before_compare (p : List String) (S : Entries) :
    sync_folders p S none =
      ((sync_folders p S (some [])).1,
        Action.createdDir p :: (sync_folders p S (some [])).2) :=
  sync_folders_none_eq p S

/-- C9: all writes of one sync_folders call target the replica tree
only: every logged action path extends the replica-relative path of the
pair; the source tree is never written (the source appears only as the
read-only first component). -/
theorem sync_writes_target_replica_only (p : List String) (S : Entries)
    (rep : Option Entries) :
    ∀ a ∈ (sync_folders p S rep).2, a.path.take p.length = p :=
  sync_folders_path_prefix p S rep

/-- Witness for C9 at a concrete pair with one logged action. -/
theorem sync_writes_target_replica_only_witness :
    (Action.copiedFile ["x"]).path.take (List.length ([] : List String)) =
      ([] : List String) :=
  sync_writes_target_replica_only [] [("x", FsTree.file [9])] (some [])
    (Action.copiedFile ["x"]) (by decide)

/-- C10: calculate_md5 feeds the hasher in 4096-byte chunks and returns
the same digest as hashing the whole byte stream at once, and the same
holds for every positive read size, so files_are_different does not
depend on the chunk size. -/
theorem calculate_md5_chunking (content : List Nat) :
    calculate_md5 content = md5hex content ∧
    ∀ csz, 1 ≤ csz → chunkedDigest csz content = md5hex content :=
  ⟨chunkedDigest_eq 4096 content (by omega),
    fun csz h => chunkedDigest_eq csz content h⟩

/-- Witness for C10 at a concrete content and chunk size. -/
theorem calculate_md5_chunking_witness :
    calculate_md5 [1, 2, 3] = md5hex [1, 2, 3] ∧
    (1 ≤ 7 ∧ chunkedDigest 7 [1, 2, 3] = md5hex [1, 2, 3]) :=
  ⟨(calculate_md5_chunking [1, 2, 3]).1,
    by omega, (calculate_md5_chunking [1, 2, 3]).2 7 (by omega)⟩

theorem phases123_lookup_commonDir (p : List String) (S R : Entries) (mk : List Action)
    (k : String) (hS : (namesE S).Nodup) (hR : sortedNames R = true)
    (hk : k ∈ dcCommonDirs S R) :
    lookupE k (phases123 p S R (R, mk)).1 = lookupE k R := by
  have h1 : k ∉ dcLeftOnly S R :=
    fun hmem => (mem_dcLeftOnly.mp hmem).2.2 (mem_dcCommon.mp (mem_dcCommonDirs.mp hk).1).2.2
  have h2 : k ∉ dcRightOnly S R :=
    fun hmem => (mem_dcRightOnly.mp hmem).2.2 (mem_dcCommon.mp (mem_dcCommonDirs.mp hk).1).2.1
  have h3 : k ∉ dcCommonFiles S R := fun hmem => dcCommonFiles_not_dirs hmem hk
  rw [phases123_lookup p S R mk k hS hR, if_neg h1, if_neg h2, if_neg h3]

/-- C5: the content equality test returns true exactly when the two MD5
digests differ, and a common file whose digest equals the source file
digest is left untouched: its replica content is preserved and no update
action is logged for it. -/
theorem files_are_different_spec :
    (∀ a b : List Nat, files_are_different a b = true ↔ md5hex a ≠ md5hex b) ∧
    (∀ (p : List String) (S R : Entries) (n : String) (cs cr : List Nat),
      wfE S = true → wfE R = true →
      lookupE n S = some (FsTree.file cs) → lookupE n R = some (FsTree.file cr) →
      md5hex cs = md5hex cr →
      lookupE n (sync_folders p S (some R)).1 = some (FsTree.file cr) ∧
      Action.updatedFile (p ++ [n]) ∉ (sync_folders p S (some R)).2) := by
  have hiff : ∀ a b : List Nat, files_are_different a b = true ↔ md5hex a ≠ md5hex b := by
    intro a b
    rw [files_are_different, bne_iff_ne,
      show calculate_md5 a = md5hex a from chunkedDigest_eq 4096 a (by omega),
      show calculate_md5 b = md5hex b from chunkedDigest_eq 4096 b (by omega)]
  refine ⟨hiff, ?_⟩
  intro p S R n cs cr hS hR hlS hlR hmd
  have hd : files_are_different cs cr = false := by
    cases hdd : files_are_different cs cr
    · rfl
    · exact absurd hmd ((hiff cs cr).mp hdd)
  have hinS : n ∈ namesE S := by
    rw [← lookupE_isSome_iff, hlS]
    rfl
  have hinR : n ∈ namesE R := by
    rw [← lookupE_isSome_iff, hlR]
    rfl
  have h1 : n ∉ dcLeftOnly S R := fun hmem => (mem_dcLeftOnly.mp hmem).2.2 hinR
  have h2 : n ∉ dcRightOnly S R := fun hmem => (mem_dcRightOnly.mp hmem).2.2 hinS
  constructor
  · rw [sync_lookup p S R n hS hR, if_neg h1, if_neg h2]
    by_cases hv : visibleName n = true
    · have h3 : n ∈ dcCommonFiles S R := by
        refine mem_dcCommonFiles.mpr ⟨mem_dcCommon.mpr ⟨hv, hinS, hinR⟩, ?_, ?_⟩
        · rw [hlS]
          rfl
        · rw [hlR]
          rfl
      rw [if_pos h3, hlS, hlR]
      dsimp only
      rw [if_neg (by rw [hd]; simp)]
    · have h3 : n ∉ dcCommonFiles S R :=
        fun hmem => hv (mem_dcCommon.mp (mem_dcCommonFiles.mp hmem).1).1
      have h4 : n ∉ dcCommonDirs S R :=
        fun hmem => hv (mem_dcCommon.mp (mem_dcCommonDirs.mp hmem).1).1
      rw [if_neg h3, if_neg h4, hlR]
  · intro hmem
    have hmem2 : Action.updatedFile (p ++ [n]) ∈
        (syncDirs p S (dcCommonDirs S R) (phases123 p S R (R, []))).2 := hmem
    rcases syncDirs_trace_deep p S (dcCommonDirs S R) (phases123 p S R (R, []))
      (wfE_nodup hS)
      (fun k hk hkc => by
        rw [phases123_lookup_commonDir p S R [] k (wfE_nodup hS) (wfE_sorted hR)
          ((containsF_iff _ _).mp hkc)]
        exact (mem_dcCommonDirs.mp ((containsF_iff _ _).mp hkc)).2.2) with ⟨D, hD, hpD⟩
    rw [hD] at hmem2
    rcases List.mem_append.mp hmem2 with hmem3 | hmem3
    · rcases updateFold_trace p S R (dcCommonFiles S R)
        ((dcRightOnly S R).foldl (removeOne p) ((dcLeftOnly S R).foldl (copyOne p S) (R, [])))
        (dcCommonFiles_nodup (wfE_nodup hS))
        (fun k hk => by
          refine phases12_lookup_frame p S R [] k (wfE_sorted hR) ?_ ?_
          · exact fun hmem4 => (mem_dcLeftOnly.mp hmem4).2.2
              (mem_dcCommon.mp (mem_dcCommonFiles.mp hk).1).2.2
          · exact fun hmem4 => (mem_dcRightOnly.mp hmem4).2.2
              (mem_dcCommon.mp (mem_dcCommonFiles.mp hk).1).2.1) with ⟨C, hC, hpC⟩
      have hmem4 : Action.updatedFile (p ++ [n]) ∈
          ((dcRightOnly S R).foldl (removeOne p)
            ((dcLeftOnly S R).foldl (copyOne p S) (R, []))).2 ++ C := by
        rw [← hC]
        exact hmem3
      rcases List.mem_append.mp hmem4 with hmem5 | hmem5
      · rcases foldl_trace (fun a => isRemoveA a = true) (dcRightOnly S R)
          ((dcLeftOnly S R).foldl (copyOne p S) (R, []))
          (fun st2 m _ => by
            rcases removeOne_trace p st2 m with ⟨new, hnew, hp⟩
            refine ⟨new, hnew, fun a ha => ?_⟩
            rcases hp a ha with h | h <;> (rw [h]; rfl)) with ⟨B, hB, hpB⟩
        have hmem6 : Action.updatedFile (p ++ [n]) ∈
            ((dcLeftOnly S R).foldl (copyOne p S) (R, [])).2 ++ B := by
          rw [← hB]
          exact hmem5
        rcases List.mem_append.mp hmem6 with hmem7 | hmem7
        · rcases foldl_trace (fun a => isCreateA a = true) (dcLeftOnly S R) (R, [])
            (fun st2 m _ => by
              rcases copyOne_trace p S st2 m with ⟨new, hnew, hp⟩
              refine ⟨new, hnew, fun a ha => ?_⟩
              rcases hp a ha with h | h <;> (rw [h]; rfl)) with ⟨A, hA, hpA⟩
          have hmem8 : Action.updatedFile (p ++ [n]) ∈ ([] : List Action) ++ A := by
            rw [← hA]
            exact hmem7
          rw [List.nil_append] at hmem8
          have := hpA _ hmem8
          cases this
        · have := hpB _ hmem7
          cases this
      · rcases hpC _ hmem5 with ⟨m, cs2, cr2, hmL, heq, hcs2, hcr2, hdiff⟩
        have hnm : p ++ [n] = p ++ [m] := by
          injection heq
        have hnm2 : n = m := by
          have := List.append_cancel_left hnm
          injection this
        subst hnm2
        rw [hlS] at hcs2
        injection hcs2 with hcs2
        injection hcs2 with hcs2
        rw [hlR] at hcr2
        injection hcr2 with hcr2
        injection hcr2 with hcr2
        rw [← hcs2, ← hcr2, hd] at hdiff
        cases hdiff
    · have hlen := hpD _ hmem3
      rw [Action.path, List.length_append, List.length_singleton] at hlen
      omega

/-- Witness for C5 at a concrete pair with one digest-equal common file. -/
theorem files_are_different_spec_witness :
    lookupE "a" (sync_folders [] [("a", FsTree.file [7])]
      (some [("a", FsTree.file [7])])).1 = some (FsTree.file [7]) ∧
    Action.updatedFile ["a"] ∉
      (sync_folders [] [("a", FsTree.file [7])] (some [("a", FsTree.file [7])])).2 :=
  files_are_different_spec.2 [] [("a", FsTree.file [7])] [("a", FsTree.file [7])]
    "a" [7] [7] (by decide) (by decide) (by decide) (by decide) rfl

/-- C6: the fixed order of actions of one sync_folders call per
directory pair: first the copies of source-only entries, then the
deletions of replica-only entries, then the overwrites of differing
common files, and only then the actions of the recursion into common
subdirectories, which all lie at least one level deeper.  In particular
all creation and deletion at a level happens before any action of a
deeper level. -/
theorem sync_phase_order (p : List String) (S R : Entries)
    (hS : wfE S = true) (hR : wfE R = true) :
    ∃ A B C D, (sync_folders p S (some R)).2 = A ++ B ++ C ++ D ∧
      (∀ a ∈ A, isCreateA a = true ∧ a.path.length = p.length + 1) ∧
      (∀ a ∈ B, isRemoveA a = true ∧ a.path.length = p.length + 1) ∧
      (∀ a ∈ C, isUpdateA a = true ∧ a.path.length = p.length + 1) ∧
      (∀ a ∈ D, p.length + 2 ≤ a.path.length) := by
  rcases phases123_trace p S R (R, []) with ⟨A, B, C, hABC, hpA, hpB, hpC⟩
  rcases syncDirs_trace_deep p S (dcCommonDirs S R) (phases123 p S R (R, []))
    (wfE_nodup hS)
    (fun k hk hkc => by
      rw [phases123_lookup_commonDir p S R [] k (wfE_nodup hS) (wfE_sorted hR)
        ((containsF_iff _ _).mp hkc)]
      exact (mem_dcCommonDirs.mp ((containsF_iff _ _).mp hkc)).2.2) with ⟨D, hD, hpD⟩
  have hlen1 : ∀ (k : String), (p ++ [k]).length = p.length + 1 := by
    intro k
    rw [List.length_append, List.length_singleton]
  refine ⟨A, B, C, D, ?_, ?_, ?_, ?_, hpD⟩
  · show (syncDirs p S (dcCommonDirs S R) (phases123 p S R (R, []))).2 = A ++ B ++ C ++ D
    rw [hD, hABC]
    show (([] : List Action) ++ A ++ B ++ C) ++ D = A ++ B ++ C ++ D
    simp [List.append_assoc]
  · intro a ha
    rcases hpA a ha with ⟨k, _, hak⟩
    rcases hak with hak | hak <;>
      (rw [hak]; exact ⟨rfl, by rw [Action.path]; exact hlen1 k⟩)
  · intro a ha
    rcases hpB a ha with ⟨k, _, hak⟩
    rcases hak with hak | hak <;>
      (rw [hak]; exact ⟨rfl, by rw [Action.path]; exact hlen1 k⟩)
  · intro a ha
    rcases hpC a ha with ⟨k, _, hak⟩
    rw [hak]
    exact ⟨rfl, by rw [Action.path]; exact hlen1 k⟩

/-- Witness for C6 at a concrete pair exercising all four phases. -/
theorem sync_phase_order_witness :
    ∃ A B C D, (sync_folders [] [("a", FsTree.dir []), ("b", FsTree.file [1])]
        (some [("a", FsTree.dir []), ("c", FsTree.file [2])])).2 = A ++ B ++ C ++ D ∧
      (∀ a ∈ A, isCreateA a = true ∧ a.path.length = 0 + 1) ∧
      (∀ a ∈ B, isRemoveA a = true ∧ a.path.length = 0 + 1) ∧
      (∀ a ∈ C, isUpdateA a = true ∧ a.path.length = 0 + 1) ∧
      (∀ a ∈ D, 0 + 2 ≤ a.path.length) :=
  sync_phase_order [] [("a", FsTree.dir []), ("b", FsTree.file [1])]
    [("a", FsTree.dir []), ("c", FsTree.file [2])] (by decide) (by decide)

/-- C3 (amended): a name that is a file in one tree and a directory in
the other is classified common_funny by dircmp, and sync_folders never
touches common_funny entries: the replica entry keeps its stale type and
content, and no action is logged at or below it. -/
theorem type_mismatch_untouched (p : List String) (S R : Entries) (n : String)
    (s r : FsTree) (hS : wfE S = true) (hR : wfE R = true)
    (hlS : lookupE n S = some s) (hlR : lookupE n R = some r)
    (hmix : isDirT s ≠ isDirT r) :
    lookupE n (sync_folders p S (some R)).1 = some r ∧
    ∀ a ∈ (sync_folders p S (some R)).2, a.path.take (p.length + 1) ≠ p ++ [n] := by
  have hinS : n ∈ namesE S := by
    rw [← lookupE_isSome_iff, hlS]
    rfl
  have hinR : n ∈ namesE R := by
    rw [← lookupE_isSome_iff, hlR]
    rfl
  have h1 : n ∉ dcLeftOnly S R := fun hmem => (mem_dcLeftOnly.mp hmem).2.2 hinR
  have h2 : n ∉ dcRightOnly S R := fun hmem => (mem_dcRightOnly.mp hmem).2.2 hinS
  have h3 : n ∉ dcCommonFiles S R := by
    intro hmem
    rcases isFileO_eq ((mem_dcCommonFiles.mp hmem).2.1) with ⟨cs, hcs⟩
    rcases isFileO_eq ((mem_dcCommonFiles.mp hmem).2.2) with ⟨cr, hcr⟩
    rw [hlS] at hcs
    rw [hlR] at hcr
    rw [Option.some_inj] at hcs hcr
    rw [hcs, hcr] at hmix
    exact hmix rfl
  have h4 : n ∉ dcCommonDirs S R := by
    intro hmem
    rcases isDirO_eq ((mem_dcCommonDirs.mp hmem).2.1) with ⟨es, hes⟩
    rcases isDirO_eq ((mem_dcCommonDirs.mp hmem).2.2) with ⟨er, her⟩
    rw [hlS] at hes
    rw [hlR] at her
    rw [Option.some_inj] at hes her
    rw [hes, her] at hmix
    exact hmix rfl
  constructor
  · rw [sync_lookup p S R n hS hR, if_neg h1, if_neg h2, if_neg h3, if_neg h4, hlR]
  · intro a ha hpath
    rcases sync_action_head p S R a ha with ⟨k, hk, hak⟩
    rw [hpath] at hak
    have hkn : n = k := by
      have := List.append_cancel_left hak
      injection this
    subst hkn
    rcases hk with hk | hk | hk | hk
    · exact h1 hk
    · exact h2 hk
    · exact h3 hk
    · exact h4 hk

/-- C3 counterexample: for source entry a file and replica entry a
directory of the same name, one sync_folders call leaves the replica
directory in place (the source type is not propagated) and logs no
action: the entry is not treated as a differing common file. -/
theorem type_mismatch_counterexample :
    (sync_folders [] [("a", FsTree.file [5])] (some [("a", FsTree.dir [])])).1 =
      [("a", FsTree.dir [])] ∧
    (sync_folders [] [("a", FsTree.file [5])] (some [("a", FsTree.dir [])])).2 = [] := by
  constructor
  · decide
  · decide

/-- Witness for the amended C3 at a concrete mismatched pair. -/
theorem type_mismatch_untouched_witness :
    lookupE "b" (sync_folders [] [("b", FsTree.dir [("x", FsTree.file [])])]
      (some [("b", FsTree.file [3])])).1 = some (FsTree.file [3]) :=
  (type_mismatch_untouched [] [("b", FsTree.dir [("x", FsTree.file [])])]
    [("b", FsTree.file [3])] "b" (FsTree.dir [("x", FsTree.file [])]) (FsTree.file [3])
    (by decide) (by decide) (by decide) (by decide) (by decide)).1

/-! ### Sorted-name extensionality -/

theorem sortedNames_pairwise : ∀ {es : Entries}, sortedNames es = true →
    (namesE es).Pairwise (fun a b => strLt a b = true)
  | [], _ => List.Pairwise.nil
  | (m, t) :: es, h => by
    have hc := (sortedNames_cons m t es).mp h
    rw [namesE_cons]
    exact List.Pairwise.cons (fun k hk => hc.1 k hk) (sortedNames_pairwise hc.2)

theorem strSorted_ext : ∀ {l1 l2 : List String},
    l1.Pairwise (fun a b => strLt a b = true) →
    l2.Pairwise (fun a b => strLt a b = true) →
    (∀ n, n ∈ l1 ↔ n ∈ l2) → l1 = l2
  | [], [], _, _, _ => rfl
  | [], y :: l2, _, _, hm => by
    exact absurd ((hm y).mpr (List.mem_cons_self _ _)) (List.not_mem_nil _)
  | x :: l1, [], _, _, hm => by
    exact absurd ((hm x).mp (List.mem_cons_self _ _)) (List.not_mem_nil _)
  | x :: l1, y :: l2, h1, h2, hm => by
    rw [List.pairwise_cons] at h1 h2
    have hxy : x = y := by
      by_contra hne
      have hx2 : x ∈ y :: l2 := (hm x).mp (List.mem_cons_self _ _)
      have hy1 : y ∈ x :: l1 := (hm y).mpr (List.mem_cons_self _ _)
      rcases List.mem_cons.mp hx2 with he | hx2
      · exact hne he
      · rcases List.mem_cons.mp hy1 with he | hy1
        · exact hne he.symm
        · have ha := h1.1 y hy1
          have hb := h2.1 x hx2
          rw [strLt_asymm ha] at hb
          cases hb
    subst hxy
    have hm2 : ∀ n, n ∈ l1 ↔ n ∈ l2 := by
      intro n
      constructor
      · intro hn
        have hne : n ≠ x := fun he => absurd he (strLt_ne (h1.1 n hn)).symm
        rcases List.mem_cons.mp ((hm n).mp (List.mem_cons_of_mem _ hn)) with he | h
        · exact absurd he hne
        · exact h
      · intro hn
        have hne : n ≠ x := fun he => absurd he (strLt_ne (h2.1 n hn)).symm
        rcases List.mem_cons.mp ((hm n).mpr (List.mem_cons_of_mem _ hn)) with he | h
        · exact absurd he hne
        · exact h
    rw [strSorted_ext h1.2 h2.2 hm2]

theorem listingOf_pairwise {es : Entries} (h : sortedNames es = true) :
    (listingOf es).Pairwise (fun a b => strLt a b = true) :=
  List.Pairwise.sublist (List.filter_sublist _) (sortedNames_pairwise h)

theorem dc_pairwise_left {S R : Entries} (h : sortedNames S = true) :
    (dcLeftOnly S R).Pairwise (fun a b => strLt a b = true) :=
  List.Pairwise.sublist (List.filter_sublist _) (listingOf_pairwise h)

theorem dc_pairwise_commonFiles {S R : Entries} (h : sortedNames S = true) :
    (dcCommonFiles S R).Pairwise (fun a b => strLt a b = true) :=
  List.Pairwise.sublist (List.filter_sublist _) (List.Pairwise.sublist (List.filter_sublist _) (listingOf_pairwise h))

theorem dc_pairwise_commonDirs {S R : Entries} (h : sortedNames S = true) :
    (dcCommonDirs S R).Pairwise (fun a b => strLt a b = true) :=
  List.Pairwise.sublist (List.filter_sublist _) (List.Pairwise.sublist (List.filter_sublist _) (listingOf_pairwise h))

/-! ### C7: one pure addition, one copy action -/

/-- C7 (amended): adding one new file with a name outside the hide and
ignore lists of dircmp to the source of a converged pair makes the next
sync_folders call log exactly the one copy of that file and nothing
else. -/
theorem single_addition_single_action (p : List String) (S R : Entries)
    (n : String) (c : List Nat)
    (hS : wfE S = true) (hR : wfE R = true)
    (hconv : convergedB S R = true)
    (hnew : lookupE n S = none) (hv : visibleName n = true) :
    (sync_folders p (insertEntry n (FsTree.file c) S) (some R)).2 =
      [Action.copiedFile (p ++ [n])] := by
  have hS2 : wfE (insertEntry n (FsTree.file c) S) = true := wfE_insert hS rfl
  rw [convergedB_eq, Bool.and_eq_true, Bool.and_eq_true, Bool.and_eq_true] at hconv
  rcases hconv with ⟨⟨⟨hl, hr⟩, hnd⟩, hcd⟩
  have hl2 : dcLeftOnly S R = [] := of_decide_eq_true hl
  have hr2 : dcRightOnly S R = [] := of_decide_eq_true hr
  have hnotS : n ∉ namesE S := (lookupE_none_iff n S).mp hnew
  have hnotR : n ∉ namesE R := by
    intro hmem
    have : n ∈ dcRightOnly S R := mem_dcRightOnly.mpr ⟨hv, hmem, hnotS⟩
    rw [hr2] at this
    exact absurd this (List.not_mem_nil _)
  have hlook2 : ∀ k, lookupE k (insertEntry n (FsTree.file c) S) =
      if k = n then some (FsTree.file c) else lookupE k S :=
    fun k => lookupE_insert n (FsTree.file c) S k
  have hmem2 : ∀ k, k ∈ namesE (insertEntry n (FsTree.file c) S) ↔
      k = n ∨ k ∈ namesE S := by
    intro k
    rw [← lookupE_isSome_iff, hlook2 k]
    by_cases hk : k = n
    · simp [hk]
    · rw [if_neg hk, lookupE_isSome_iff]
      simp [hk]
  -- the four partition lists of the enlarged pair
  have hLO : dcLeftOnly (insertEntry n (FsTree.file c) S) R = [n] := by
    refine strSorted_ext (dc_pairwise_left (wfE_sorted hS2)) ?_ ?_
    · exact List.pairwise_singleton _ _
    · intro k
      rw [mem_dcLeftOnly, List.mem_singleton]
      constructor
      · rintro ⟨hkv, hkS, hkR⟩
        rcases (hmem2 k).mp hkS with he | hkS2
        · exact he
        · exfalso
          have : k ∈ dcLeftOnly S R := mem_dcLeftOnly.mpr ⟨hkv, hkS2, hkR⟩
          rw [hl2] at this
          exact absurd this (List.not_mem_nil _)
      · rintro rfl
        exact ⟨hv, (hmem2 k).mpr (Or.inl rfl), hnotR⟩
  have hRO : dcRightOnly (insertEntry n (FsTree.file c) S) R = [] := by
    rw [List.eq_nil_iff_forall_not_mem]
    intro k hk
    rcases mem_dcRightOnly.mp hk with ⟨hkv, hkR, hkS⟩
    have hkS2 : k ∉ namesE S := fun hmem => hkS ((hmem2 k).mpr (Or.inr hmem))
    have : k ∈ dcRightOnly S R := mem_dcRightOnly.mpr ⟨hkv, hkR, hkS2⟩
    rw [hr2] at this
    exact absurd this (List.not_mem_nil _)
  have hkne : ∀ k, k ∈ namesE R → k ≠ n := fun k hk he => hnotR (he ▸ hk)
  have hCF : dcCommonFiles (insertEntry n (FsTree.file c) S) R = dcCommonFiles S R := by
    refine strSorted_ext (dc_pairwise_commonFiles (wfE_sorted hS2))
      (dc_pairwise_commonFiles (wfE_sorted hS)) ?_
    intro k
    rw [mem_dcCommonFiles, mem_dcCommonFiles, mem_dcCommon, mem_dcCommon]
    constructor
    · rintro ⟨⟨hkv, hkS, hkR⟩, hf1, hf2⟩
      have hne := hkne k hkR
      rw [hlook2 k, if_neg hne] at hf1
      rcases (hmem2 k).mp hkS with he | hkS2
      · exact absurd he hne
      · exact ⟨⟨hkv, hkS2, hkR⟩, hf1, hf2⟩
    · rintro ⟨⟨hkv, hkS, hkR⟩, hf1, hf2⟩
      have hne := hkne k hkR
      refine ⟨⟨hkv, (hmem2 k).mpr (Or.inr hkS), hkR⟩, ?_, hf2⟩
      rw [hlook2 k, if_neg hne]
      exact hf1
  have hCD : dcCommonDirs (insertEntry n (FsTree.file c) S) R = dcCommonDirs S R := by
    refine strSorted_ext (dc_pairwise_commonDirs (wfE_sorted hS2))
      (dc_pairwise_commonDirs (wfE_sorted hS)) ?_
    intro k
    rw [mem_dcCommonDirs, mem_dcCommonDirs, mem_dcCommon, mem_dcCommon]
    constructor
    · rintro ⟨⟨hkv, hkS, hkR⟩, hf1, hf2⟩
      have hne := hkne k hkR
      rw [hlook2 k, if_neg hne] at hf1
      rcases (hmem2 k).mp hkS with he | hkS2
      · exact absurd he hne
      · exact ⟨⟨hkv, hkS2, hkR⟩, hf1, hf2⟩
    · rintro ⟨⟨hkv, hkS, hkR⟩, hf1, hf2⟩
      have hne := hkne k hkR
      refine ⟨⟨hkv, (hmem2 k).mpr (Or.inr hkS), hkR⟩, ?_, hf2⟩
      rw [hlook2 k, if_neg hne]
      exact hf1
  -- run the call
  rw [sync_folders]
  show (syncDirs p (insertEntry n (FsTree.file c) S)
      (dcCommonDirs (insertEntry n (FsTree.file c) S) R)
      (phases123 p (insertEntry n (FsTree.file c) S) R (R, []))).2 =
    [Action.copiedFile (p ++ [n])]
  rw [phases123, hLO, hRO, hCF, hCD]
  rw [List.foldl_cons, List.foldl_nil, List.foldl_nil]
  have hcopy : copyOne p (insertEntry n (FsTree.file c) S) (R, []) n =
      (insertEntry n (FsTree.file c) R, [Action.copiedFile (p ++ [n])]) := by
    rw [copyOne, hlook2 n, if_pos rfl]
    dsimp only
    rw [List.nil_append]
  rw [hcopy]
  have hnodiff : noDiffFiles (insertEntry n (FsTree.file c) S)
      (insertEntry n (FsTree.file c) R) (dcCommonFiles S R) = true := by
    rw [noDiffFiles_iff]
    intro k hk cs cr hcs hcr
    have hkR : k ∈ namesE R := (mem_dcCommon.mp (mem_dcCommonFiles.mp hk).1).2.2
    have hne := hkne k hkR
    rw [hlook2 k, if_neg hne] at hcs
    rw [lookupE_insert, if_neg hne] at hcr
    exact (noDiffFiles_iff S R (dcCommonFiles S R)).mp hnd k hk cs cr hcs hcr
  rw [updateFold_id p (insertEntry n (FsTree.file c) S) (dcCommonFiles S R)
    (insertEntry n (FsTree.file c) R) [Action.copiedFile (p ++ [n])] hnodiff]
  have hch2 : wfChildren (insertEntry n (FsTree.file c) S) = true := by
    rw [wfE, Bool.and_eq_true] at hS2
    exact hS2.2
  have hwR1 : wfE (insertEntry n (FsTree.file c) R) = true := wfE_insert hR rfl
  have hcd2 : convergedDirs (insertEntry n (FsTree.file c) S) (dcCommonDirs S R)
      (insertEntry n (FsTree.file c) R) = true := by
    rw [convergedDirs_iff]
    intro m u hmemu hcm er2 her2
    have hmcd := mem_dcCommonDirs.mp ((containsF_iff _ _).mp hcm)
    have hmR : m ∈ namesE R := (mem_dcCommon.mp hmcd.1).2.2
    have hne := hkne m hmR
    rcases insertEntry_mem hmemu with he | hmemu2
    · exact absurd (congrArg Prod.fst he) hne
    · rw [lookupE_insert, if_neg hne] at her2
      exact (convergedDirs_iff S (dcCommonDirs S R) R).mp hcd m u hmemu2 hcm er2 her2
  have h4 : ∀ m u, (m, u) ∈ insertEntry n (FsTree.file c) S →
      (dcCommonDirs S R).contains m = true → isDirO (some u) = true := by
    intro m u hmemu hcm
    have hmcd := mem_dcCommonDirs.mp ((containsF_iff _ _).mp hcm)
    have hmR : m ∈ namesE R := (mem_dcCommon.mp hmcd.1).2.2
    have hne := hkne m hmR
    rcases insertEntry_mem hmemu with he | hmemu2
    · exact absurd (congrArg Prod.fst he) hne
    · rw [← lookupE_of_mem (wfE_nodup hS) hmemu2]
      exact hmcd.2.1
  have h5 : ∀ m u, (m, u) ∈ insertEntry n (FsTree.file c) S →
      (dcCommonDirs S R).contains m = true →
      isDirO (lookupE m (insertEntry n (FsTree.file c) R)) = true := by
    intro m u hmemu hcm
    have hmcd := mem_dcCommonDirs.mp ((containsF_iff _ _).mp hcm)
    have hmR : m ∈ namesE R := (mem_dcCommon.mp hmcd.1).2.2
    have hne := hkne m hmR
    rw [lookupE_insert, if_neg hne]
    exact hmcd.2.2
  rw [syncDirs_id p (insertEntry n (FsTree.file c) S) (dcCommonDirs S R)
    (insertEntry n (FsTree.file c) R) [Action.copiedFile (p ++ [n])]
    hch2 hwR1 hcd2 h4 h5]

/-- Witness for the amended C7 at a concrete converged pair. -/
theorem single_addition_single_action_witness :
    (sync_folders [] (insertEntry "b" (FsTree.file [9]) [("a", FsTree.dir [])])
      (some [("a", FsTree.dir [])])).2 = [Action.copiedFile ["b"]] :=
  single_addition_single_action [] [("a", FsTree.dir [])] [("a", FsTree.dir [])]
    "b" [9] (by decide) (by decide) (by decide) (by decide) (by decide)

/-- C7 counterexample: adding a single new file whose name is on
dircmp's default ignore list (here .git) to the source of a converged
pair produces no action at all, not exactly one created action. -/
theorem single_addition_counterexample :
    (sync_folders [] [(".git", FsTree.file [1])] (some [])).2 = [] := by
  decide

/-! ### C1: path and digest observations, hygiene predicates -/

mutual
/-- All relative paths under a tree node. -/
def pathsOfT : FsTree → List (List String)
  | FsTree.file _ => []
  | FsTree.dir es => pathsOfE es

/-- All relative paths of a listing: each entry's own name, the paths
below it prefixed with that name, then the later entries. -/
def pathsOfE : Entries → List (List String)
  | [] => []
  | (n, t) :: es => [n] :: ((pathsOfT t).map (fun q => n :: q) ++ pathsOfE es)
end

mutual
/-- The content digest found by descending a tree along a relative
path: defined exactly at the file nodes. -/
def digestAtT : FsTree → List String → Option String
  | FsTree.file c, [] => some (calculate_md5 c)
  | FsTree.file _, _ :: _ => none
  | FsTree.dir _, [] => none
  | FsTree.dir es, n :: q => digestAtE es n q

/-- The content digest in a listing at the relative path n :: q. -/
def digestAtE : Entries → String → List String → Option String
  | [], _, _ => none
  | (m, t) :: es, n, q => if m = n then digestAtT t q else digestAtE es n q
end

mutual
/-- No name anywhere in the tree is on dircmp's hide or ignore lists. -/
def noIgnT : FsTree → Bool
  | FsTree.file _ => true
  | FsTree.dir es => noIgnE es

/-- No name anywhere in the listing is on dircmp's hide or ignore
lists. -/
def noIgnE : Entries → Bool
  | [] => true
  | (n, t) :: es => visibleName n && noIgnT t && noIgnE es
end

mutual
/-- A source node is type-compatible with the replica entry of the same
name: never a file on one side and a directory on the other, and for a
pair of directories the same holds recursively. -/
def compatT : FsTree → Option FsTree → Bool
  | FsTree.file _, some (FsTree.dir _) => false
  | FsTree.dir _, some (FsTree.file _) => false
  | FsTree.dir es, some (FsTree.dir er) => compatE es er
  | _, _ => true

/-- Every source entry is type-compatible with the replica entry of the
same name. -/
def compatE : Entries → Entries → Bool
  | [], _ => true
  | (n, t) :: es, er => compatT t (lookupE n er) && compatE es er
end

theorem noIgnE_visible : ∀ {es : Entries}, noIgnE es = true →
    ∀ n ∈ namesE es, visibleName n = true
  | [], _, n, hn => absurd hn (List.not_mem_nil _)
  | (m, t) :: es, h, n, hn => by
    rw [noIgnE, Bool.and_eq_true, Bool.and_eq_true] at h
    rw [namesE_cons] at hn
    rcases List.mem_cons.mp hn with rfl | hn2
    · exact h.1.1
    · exact noIgnE_visible h.2 n hn2

theorem noIgnE_lookup : ∀ {es : Entries} {n : String} {t : FsTree},
    noIgnE es = true → lookupE n es = some t → noIgnT t = true
  | [], _, _, _, hl => by cases hl
  | (m, u) :: es, n, t, h, hl => by
    rw [noIgnE, Bool.and_eq_true, Bool.and_eq_true] at h
    rw [lookupE] at hl
    by_cases hm : m = n
    · rw [if_pos hm] at hl
      injection hl with hl
      rw [← hl]
      exact h.1.2
    · rw [if_neg hm] at hl
      exact noIgnE_lookup h.2 hl

theorem compatE_lookup : ∀ {es er : Entries} {n : String} {t : FsTree},
    compatE es er = true → lookupE n es = some t → compatT t (lookupE n er) = true
  | [], _, _, _, _, hl => by cases hl
  | (m, u) :: es, er, n, t, h, hl => by
    rw [compatE, Bool.and_eq_true] at h
    rw [lookupE] at hl
    by_cases hm : m = n
    · rw [if_pos hm] at hl
      injection hl with hl
      rw [← hl, ← hm]
      exact h.1
    · rw [if_neg hm] at hl
      exact compatE_lookup h.2 hl

theorem md5_eq_of_not_different {cs cr : List Nat}
    (h : files_are_different cs cr = false) :
    calculate_md5 cr = calculate_md5 cs := by
  rw [files_are_different] at h
  simp only [bne, Bool.not_eq_false'] at h
  exact (eq_of_beq h).symm

/-- On a hygienic, type-compatible well-formed pair, one sync_folders
call leaves the replica with exactly the source's entry names. -/
theorem sync_names (p : List String) (S R : Entries)
    (hS : wfE S = true) (hR : wfE R = true)
    (hnS : noIgnE S = true) (hnR : noIgnE R = true)
    (hc : compatE S R = true) :
    namesE (sync_folders p S (some R)).1 = namesE S := by
  have hwF : wfE (sync_folders p S (some R)).1 = true := sync_folders_wf p S (some R) hS hR
  refine strSorted_ext (sortedNames_pairwise (wfE_sorted hwF))
    (sortedNames_pairwise (wfE_sorted hS)) ?_
  intro n
  rw [← lookupE_isSome_iff, ← lookupE_isSome_iff, sync_lookup p S R n hS hR]
  by_cases h1 : n ∈ dcLeftOnly S R
  · rw [if_pos h1]
  · rw [if_neg h1]
    by_cases h2 : n ∈ dcRightOnly S R
    · rw [if_pos h2]
      constructor
      · intro h0
        simp at h0
      · intro hS1
        exact absurd ((lookupE_isSome_iff n S).mp hS1) (mem_dcRightOnly.mp h2).2.2
    · rw [if_neg h2]
      by_cases h3 : n ∈ dcCommonFiles S R
      · rw [if_pos h3]
        rcases isFileO_eq (mem_dcCommonFiles.mp h3).2.1 with ⟨cs, hcs⟩
        rcases isFileO_eq (mem_dcCommonFiles.mp h3).2.2 with ⟨cr, hcr⟩
        rw [hcs, hcr]
        dsimp only
        simp
      · rw [if_neg h3]
        by_cases h4 : n ∈ dcCommonDirs S R
        · rw [if_pos h4]
          rcases isDirO_eq (mem_dcCommonDirs.mp h4).2.1 with ⟨es2, hes2⟩
          rcases isDirO_eq (mem_dcCommonDirs.mp h4).2.2 with ⟨er2, her2⟩
          rw [hes2, her2]
          dsimp only
          simp
        · rw [if_neg h4]
          have hnotS : n ∉ namesE S := by
            intro hSn
            have hv := noIgnE_visible hnS n hSn
            by_cases hRn : n ∈ namesE R
            · rcases Option.isSome_iff_exists.mp ((lookupE_isSome_iff n S).mpr hSn) with ⟨t, ht⟩
              rcases Option.isSome_iff_exists.mp ((lookupE_isSome_iff n R).mpr hRn) with ⟨u, hu⟩
              have hcompat := compatE_lookup hc ht
              rw [hu] at hcompat
              have hcom := mem_dcCommon.mpr ⟨hv, hSn, hRn⟩
              cases t with
              | file cs =>
                cases u with
                | file cr =>
                  refine h3 (mem_dcCommonFiles.mpr ⟨hcom, ?_, ?_⟩)
                  · rw [ht]
                    rfl
                  · rw [hu]
                    rfl
                | dir er => cases hcompat
              | dir es2 =>
                cases u with
                | file cr => cases hcompat
                | dir er2 =>
                  refine h4 (mem_dcCommonDirs.mpr ⟨hcom, ?_, ?_⟩)
                  · rw [ht]
                    rfl
                  · rw [hu]
                    rfl
            · exact h1 (mem_dcLeftOnly.mpr ⟨hv, hSn, hRn⟩)
          have hnotR : n ∉ namesE R := by
            intro hRn
            exact h2 (mem_dcRightOnly.mpr ⟨noIgnE_visible hnR n hRn, hRn, hnotS⟩)
          rw [lookupE_isSome_iff, lookupE_isSome_iff]
          exact iff_of_false hnotR hnotS

/-- Two listings with the same name list, corresponding entries of
which agree on paths and digests, agree on paths and digests. -/
theorem obsE_ext : ∀ (A B : Entries), namesE A = namesE B → (namesE A).Nodup →
    (∀ n t u, lookupE n A = some t → lookupE n B = some u →
      pathsOfT t = pathsOfT u ∧ ∀ q, digestAtT t q = digestAtT u q) →
    pathsOfE A = pathsOfE B ∧ ∀ n q, digestAtE A n q = digestAtE B n q
  | [], [], _, _, _ => ⟨rfl, fun _ _ => rfl⟩
  | [], (m, u) :: B, hn, _, _ => by cases hn
  | (n, t) :: A, [], hn, _, _ => by cases hn
  | (n, t) :: A, (m, u) :: B, hn, hnd, h => by
    rw [namesE_cons, namesE_cons] at hn
    injection hn with hnm hn2
    subst hnm
    rw [namesE_cons, List.nodup_cons] at hnd
    have hhead := h n t u (by rw [lookupE, if_pos rfl]) (by rw [lookupE, if_pos rfl])
    have htail : ∀ k t2 u2, lookupE k A = some t2 → lookupE k B = some u2 →
        pathsOfT t2 = pathsOfT u2 ∧ ∀ q, digestAtT t2 q = digestAtT u2 q := by
      intro k t2 u2 hA hB
      have hk : ¬ n = k := by
        intro he
        subst he
        exact hnd.1 ((lookupE_isSome_iff n A).mp (by rw [hA]; rfl))
      refine h k t2 u2 ?_ ?_
      · rw [lookupE, if_neg hk]
        exact hA
      · rw [lookupE, if_neg hk]
        exact hB
    have ih := obsE_ext A B hn2 hnd.2 htail
    refine ⟨?_, ?_⟩
    · rw [pathsOfE, pathsOfE, hhead.1, ih.1]
    · intro k q
      rw [digestAtE, digestAtE]
      by_cases hk : n = k
      · rw [if_pos hk, if_pos hk, hhead.2 q]
      · rw [if_neg hk, if_neg hk]
        exact ih.2 k q

mutual
/-- After one sync_folders call on a hygienic, type-compatible,
well-formed directory pair, the replica listing carries exactly the
source's relative paths and, at every path, the source's digest. -/
theorem syncSub_mirror : ∀ (p : List String) (t : FsTree) (R : Entries),
    t.wfB = true → wfE R = true → noIgnT t = true → noIgnE R = true →
    ∀ es, t = FsTree.dir es → compatE es R = true →
    pathsOfE (sync_folders p es (some R)).1 = pathsOfE es ∧
    ∀ k q, digestAtE (sync_folders p es (some R)).1 k q = digestAtE es k q
  | p, FsTree.file c, R, _, _, _, _, es, he, _ => by cases he
  | p, FsTree.dir es0, R, hwt0, hR, hni0, hniR, es, he, hc => by
    have hes : es0 = es := by injection he
    subst hes
    rw [wfB_dir_iff] at hwt0
    rw [noIgnT] at hni0
    have hch : wfChildren es0 = true := by
      have h0 := hwt0
      rw [wfE, Bool.and_eq_true] at h0
      exact h0.2
    have hwF : wfE (sync_folders p es0 (some R)).1 = true :=
      sync_folders_wf p es0 (some R) hwt0 hR
    have hnames : namesE (sync_folders p es0 (some R)).1 = namesE es0 :=
      sync_names p es0 R hwt0 hR hni0 hniR hc
    refine obsE_ext _ _ hnames (wfE_nodup hwF) ?_
    intro n t2 u2 hF hS
    rw [sync_lookup p es0 R n hwt0 hR] at hF
    by_cases h1 : n ∈ dcLeftOnly es0 R
    · rw [if_pos h1, hS] at hF
      injection hF with hF
      subst hF
      exact ⟨rfl, fun _ => rfl⟩
    · rw [if_neg h1] at hF
      by_cases h2 : n ∈ dcRightOnly es0 R
      · rw [if_pos h2] at hF
        cases hF
      · rw [if_neg h2] at hF
        by_cases h3 : n ∈ dcCommonFiles es0 R
        · rw [if_pos h3] at hF
          rcases isFileO_eq (mem_dcCommonFiles.mp h3).2.1 with ⟨cs, hcs⟩
          rcases isFileO_eq (mem_dcCommonFiles.mp h3).2.2 with ⟨cr, hcr⟩
          rw [hcs, hcr] at hF
          dsimp only at hF
          injection hF with hF
          rw [hcs] at hS
          injection hS with hS
          subst hS
          rw [← hF]
          refine ⟨rfl, ?_⟩
          intro q
          cases q with
          | nil =>
            rw [digestAtT, digestAtT]
            by_cases hd : files_are_different cs cr = true
            · rw [if_pos hd]
            · rw [if_neg hd, md5_eq_of_not_different (Bool.eq_false_iff.mpr hd)]
          | cons a q2 => rfl
        · rw [if_neg h3] at hF
          by_cases h4 : n ∈ dcCommonDirs es0 R
          · rw [if_pos h4] at hF
            rcases isDirO_eq (mem_dcCommonDirs.mp h4).2.1 with ⟨es2, hes2⟩
            rcases isDirO_eq (mem_dcCommonDirs.mp h4).2.2 with ⟨er2, her2⟩
            rw [hes2, her2] at hF
            dsimp only at hF
            injection hF with hF
            rw [hes2] at hS
            injection hS with hS
            subst hS
            have hwr2 : wfE er2 = true := by
              have hb := wfE_lookup hR her2
              rw [wfB_dir_iff] at hb
              exact hb
            have hni2 : noIgnE er2 = true := by
              have hb := noIgnE_lookup hniR her2
              rw [noIgnT] at hb
              exact hb
            have hcompat2 : compatE es2 er2 = true := by
              have hb := compatE_lookup hc hes2
              rw [her2, compatT] at hb
              exact hb
            have ih := mirrorRec es0 hch hni0 (p ++ [n]) n es2 er2
              (lookupE_mem hes2) hwr2 hni2 hcompat2
            rw [← hF]
            refine ⟨?_, ?_⟩
            · rw [pathsOfT, pathsOfT]
              exact ih.1
            · intro q
              cases q with
              | nil => rfl
              | cons a q2 =>
                rw [digestAtT, digestAtT]
                exact ih.2 a q2
          · rw [if_neg h4] at hF
            have hSn : n ∈ namesE es0 := (lookupE_isSome_iff n es0).mp (by rw [hS]; rfl)
            have hRn : n ∈ namesE R := (lookupE_isSome_iff n R).mp (by rw [hF]; rfl)
            have hv := noIgnE_visible hni0 n hSn
            have hcom := mem_dcCommon.mpr ⟨hv, hSn, hRn⟩
            have hcompat := compatE_lookup hc hS
            rw [hF] at hcompat
            cases u2 with
            | file cs =>
              cases t2 with
              | file cr =>
                refine absurd (mem_dcCommonFiles.mpr ⟨hcom, ?_, ?_⟩) h3
                · rw [hS]
                  rfl
                · rw [hF]
                  rfl
              | dir er => cases hcompat
            | dir es2 =>
              cases t2 with
              | file cr => cases hcompat
              | dir er2 =>
                refine absurd (mem_dcCommonDirs.mpr ⟨hcom, ?_, ?_⟩) h4
                · rw [hS]
                  rfl
                · rw [hF]
                  rfl

/-- The mirror property for every directory entry of a hygienic
well-formed listing. -/
theorem mirrorRec : ∀ (ents : Entries), wfChildren ents = true → noIgnE ents = true →
    ∀ (q : List String) (n : String) (es2 er2 : Entries),
      (n, FsTree.dir es2) ∈ ents → wfE er2 = true → noIgnE er2 = true →
      compatE es2 er2 = true →
      pathsOfE (sync_folders q es2 (some er2)).1 = pathsOfE es2 ∧
      ∀ k qq, digestAtE (sync_folders q es2 (some er2)).1 k qq = digestAtE es2 k qq
  | [], _, _, _, n, es2, er2, hmem, _, _, _ => absurd hmem (List.not_mem_nil _)
  | (m, u) :: rest, hch, hni, q, n, es2, er2, hmem, hwr, hnir, hcomp => by
    rw [wfChildren, Bool.and_eq_true] at hch
    rw [noIgnE, Bool.and_eq_true, Bool.and_eq_true] at hni
    rcases List.mem_cons.mp hmem with he | hmem2
    · have hu : u = FsTree.dir es2 := (congrArg Prod.snd he).symm
      exact syncSub_mirror q u er2 hch.1 hwr hni.1.2 hnir es2 hu hcomp
    · exact mirrorRec rest hch.2 hni.2 q n es2 er2 hmem2 hwr hnir hcomp
end

/-- C1 (amended): for a well-formed pair in which no name falls on
dircmp's hide or ignore lists and no common name is a file on one side
and a directory on the other (recursively), one sync_folders call makes
the replica's list of relative paths equal the source's and the digest
at every relative path equal the source's. -/
theorem reconcile_convergence (p : List String) (S R : Entries)
    (hS : wfE S = true) (hR : wfE R = true)
    (hnS : noIgnE S = true) (hnR : noIgnE R = true)
    (hc : compatE S R = true) :
    pathsOfE (sync_folders p S (some R)).1 = pathsOfE S ∧
    ∀ n q, digestAtE (sync_folders p S (some R)).1 n q = digestAtE S n q :=
  syncSub_mirror p (FsTree.dir S) R ((wfB_dir_iff S).mpr hS) hR
    (by rw [noIgnT]; exact hnS) hnR S rfl hc

/-- Witness for the amended C1 at a concrete pair. -/
theorem reconcile_convergence_witness :
    pathsOfE (sync_folders [] [("a", FsTree.dir [])]
      (some [("b", FsTree.dir [])])).1 = pathsOfE [("a", FsTree.dir [])] ∧
    ∀ n q, digestAtE (sync_folders [] [("a", FsTree.dir [])]
      (some [("b", FsTree.dir [])])).1 n q = digestAtE [("a", FsTree.dir [])] n q :=
  reconcile_convergence [] [("a", FsTree.dir [])] [("b", FsTree.dir [])]
    (by decide) (by decide) (by decide) (by decide) (by decide)

/-- C1 counterexample: a source whose only entry carries a name on
dircmp's default ignore list (.git) is never copied, so after the call
the replica's path list differs from the source's. -/
theorem reconcile_convergence_counterexample :
    ¬ pathsOfE (sync_folders [] [(".git", FsTree.file [1])] (some [])).1 =
      pathsOfE [(".git", FsTree.file [1])] := by
  decide

/-! ### C2: error model of sync_folders

sync_folders contains no try/except: an OSError raised while listing a
directory pair (the dircmp attribute accesses) or while reading a file
inside files_are_different propagates out of the call.  The model takes
a fault map bad over replica-relative paths: bad p = true means listing
the directory pair at p raises, and reading the file at p raises.  The
Bool of a result is true when the call returned normally and false when
an uncaught exception escaped; the state component is the replica
listing and log at that moment. -/

/-- The common_files loop under the fault map: a raising digest read at
p ++ [n] aborts the loop before updating that entry; earlier updates
persist. -/
def updateAllE (bad : List String → Bool) (p : List String) (S : Entries) :
    List String → Entries × List Action → (Entries × List Action) × Bool
  | [], st => (st, true)
  | n :: rest, st =>
    if bad (p ++ [n]) then (st, false)
    else updateAllE bad p S rest (updateOne p S st n)

mutual
/-- syncSub under the fault map: a listing failure at the pair's path
aborts before any loop runs; a failure below propagates out, skipping
every remaining entry. -/
def syncSubE (bad : List String → Bool) (p : List String) :
    FsTree → Option Entries → (FsTree × List Action) × Bool
  | FsTree.file c, _ => ((FsTree.file c, []), true)
  | FsTree.dir es, rep =>
    if bad p then ((FsTree.dir (rep.getD []), mkdirActions p rep), false)
    else
      match updateAllE bad p es (dcCommonFiles es (rep.getD []))
          ((dcRightOnly es (rep.getD [])).foldl (removeOne p)
            ((dcLeftOnly es (rep.getD [])).foldl (copyOne p es)
              (rep.getD [], mkdirActions p rep))) with
      | (st, false) => ((FsTree.dir st.1, st.2), false)
      | (st, true) =>
        match syncDirsE bad p es (dcCommonDirs es (rep.getD [])) st with
        | (st2, ok) => ((FsTree.dir st2.1, st2.2), ok)

/-- The common_dirs loop under the fault map: an exception escaping one
recursive call propagates at once, so the later sibling subdirectories
are not visited. -/
def syncDirsE (bad : List String → Bool) (p : List String) :
    Entries → List String → Entries × List Action → (Entries × List Action) × Bool
  | [], _, st => (st, true)
  | (n, t) :: rest, cds, st =>
    if cds.contains n then
      match lookupE n st.1 with
      | some (FsTree.dir er) =>
        match syncSubE bad (p ++ [n]) t (some er) with
        | ((u, acts), true) =>
          syncDirsE bad p rest cds (insertEntry n u st.1, st.2 ++ acts)
        | ((u, acts), false) => ((insertEntry n u st.1, st.2 ++ acts), false)
      | some (FsTree.file _) => syncDirsE bad p rest cds st
      | none =>
        match syncSubE bad (p ++ [n]) t none with
        | ((u, acts), true) =>
          syncDirsE bad p rest cds (insertEntry n u st.1, st.2 ++ acts)
        | ((u, acts), false) => ((insertEntry n u st.1, st.2 ++ acts), false)
    else syncDirsE bad p rest cds st
end

/-- sync_folders under the fault map. -/
def syncFoldersE (bad : List String → Bool) (p : List String) (S : Entries)
    (rep : Option Entries) : (Entries × List Action) × Bool :=
  if bad p then ((rep.getD [], mkdirActions p rep), false)
  else
    match updateAllE bad p S (dcCommonFiles S (rep.getD []))
        ((dcRightOnly S (rep.getD [])).foldl (removeOne p)
          ((dcLeftOnly S (rep.getD [])).foldl (copyOne p S)
            (rep.getD [], mkdirActions p rep))) with
    | (st, false) => (st, false)
    | (st, true) => syncDirsE bad p S (dcCommonDirs S (rep.getD [])) st

/-- With no fault anywhere, the common_files loop of the model is the
plain updateOne fold. -/
theorem updateAllE_ok (p : List String) (S : Entries) :
    ∀ (L : List String) (st : Entries × List Action),
      updateAllE (fun _ => false) p S L st = (L.foldl (updateOne p S) st, true)
  | [], _ => rfl
  | n :: rest, st => by
    rw [updateAllE, if_neg (fun h => Bool.false_ne_true h), List.foldl_cons]
    exact updateAllE_ok p S rest (updateOne p S st n)

mutual
/-- With no fault anywhere the model coincides with syncSub and reports
normal completion. -/
theorem syncSubE_ok : ∀ (p : List String) (t : FsTree) (rep : Option Entries),
    syncSubE (fun _ => false) p t rep = (syncSub p t rep, true)
  | _, FsTree.file _, _ => rfl
  | p, FsTree.dir es, rep => by
    rcases hsd : syncDirs p es (dcCommonDirs es (rep.getD []))
        (phases123 p es (rep.getD []) (rep.getD [], mkdirActions p rep)) with ⟨res, acts⟩
    rw [syncSubE, if_neg (fun h => Bool.false_ne_true h), updateAllE_ok]
    rw [syncSub, hsd]
    dsimp only
    rw [syncDirsE_ok p es (dcCommonDirs es (rep.getD []))]
    rw [show ((dcCommonFiles es (rep.getD [])).foldl (updateOne p es)
        ((dcRightOnly es (rep.getD [])).foldl (removeOne p)
          ((dcLeftOnly es (rep.getD [])).foldl (copyOne p es)
            (rep.getD [], mkdirActions p rep)))) =
      phases123 p es (rep.getD []) (rep.getD [], mkdirActions p rep) from rfl]
    rw [hsd]

/-- With no fault anywhere the model coincides with syncDirs and
reports normal completion. -/
theorem syncDirsE_ok : ∀ (p : List String) (es : Entries) (cds : List String)
    (st : Entries × List Action),
    syncDirsE (fun _ => false) p es cds st = (syncDirs p es cds st, true)
  | _, [], _, _ => rfl
  | p, (n, t) :: rest, cds, st => by
    rw [syncDirsE, syncDirs]
    by_cases hc : cds.contains n = true
    · rw [if_pos hc, if_pos hc]
      cases hl : lookupE n st.1 with
      | none =>
        rw [syncSubE_ok]
        rcases hss : syncSub (p ++ [n]) t none with ⟨u, acts⟩
        dsimp only
        exact syncDirsE_ok p rest cds (insertEntry n u st.1, st.2 ++ acts)
      | some t2 =>
        cases t2 with
        | file c =>
          exact syncDirsE_ok p rest cds st
        | dir er =>
          dsimp only
          rw [syncSubE_ok]
          rcases hss : syncSub (p ++ [n]) t (some er) with ⟨u, acts⟩
          dsimp only
          exact syncDirsE_ok p rest cds (insertEntry n u st.1, st.2 ++ acts)
    · rw [if_neg hc, if_neg hc]
      exact syncDirsE_ok p rest cds st
end

/-- With no fault anywhere the model is sync_folders with normal
completion: the fault map extends the embedding conservatively. -/
theorem syncFoldersE_ok (p : List String) (S : Entries) (rep : Option Entries) :
    syncFoldersE (fun _ => false) p S rep = (sync_folders p S rep, true) := by
  rw [syncFoldersE, if_neg (fun h => Bool.false_ne_true h), updateAllE_ok]
  dsimp only
  rw [syncDirsE_ok, sync_folders, phases123]

/-- C2 (amended): sync_folders contains no exception handling: a
listing failure at the directory pair itself escapes the call uncaught,
before any entry of any loop is processed, leaving the replica listing
as it was with no action logged. -/
theorem listing_failure_not_caught (bad : List String → Bool) (p : List String)
    (S R : Entries) (h : bad p = true) :
    syncFoldersE bad p S (some R) = ((R, []), false) := by
  rw [syncFoldersE, if_pos h]
  rfl

/-- Witness for the amended C2 at a concrete faulty pair. -/
theorem listing_failure_not_caught_witness :
    syncFoldersE (fun q => decide (q = [])) [] [("a", FsTree.dir [])] (some []) =
      (([], []), false) :=
  listing_failure_not_caught (fun q => decide (q = [])) [] [("a", FsTree.dir [])] []
    (by decide)

/-- C2 counterexample: with a listing failure only inside subdirectory
a, the exception escapes the whole call (flag false) and the sibling
subdirectory b is never processed: its missing file x is not copied and
no action at all is logged. -/
theorem failure_isolation_counterexample :
    syncFoldersE (fun q => decide (q = ["a"])) []
        [("a", FsTree.dir []), ("b", FsTree.dir [("x", FsTree.file [1])])]
        (some [("a", FsTree.dir []), ("b", FsTree.dir [])]) =
      (([("a", FsTree.dir []), ("b", FsTree.dir [])], []), false) ∧
    Action.copiedFile ["b", "x"] ∉
      (syncFoldersE (fun q => decide (q = ["a"])) []
        [("a", FsTree.dir []), ("b", FsTree.dir [("x", FsTree.file [1])])]
        (some [("a", FsTree.dir []), ("b", FsTree.dir [])])).1.2 := by
  refine ⟨by decide, ?_⟩
  decide
